import Mathlib

/-!
# A shallow embedding of the DBusParse core (types, values, serializer, parser)

This file embeds the core of the DBusParse C++ library in Lean and proves
properties of the embedding.

Modelling conventions:

* Wire bytes are `Nat` values (each `< 256` for genuine byte streams).
* Machine integers are `Nat` bit patterns.  Where the C++ casts between
  signed and unsigned, or between `double` and `uint64_t`, through
  bit-preserving casts, the embedding keeps the bit pattern: `int16_t`,
  `int32_t`, `int64_t` values are stored as their unsigned bit patterns and
  `double` values are stored as the `uint64_t` bit pattern that the union
  cast in the source produces.  All of those casts are bijections on bit
  patterns, so nothing is lost.
* Byte positions are `Nat`.  The `__builtin_add_overflow` guards of the
  source that compute `size_t` sums are modelled by explicit `2 ^ 64`
  comparisons where the source raises a `ParseError` on overflow
  (variant signature end, array end).  The guard in `Parse::parse` itself
  (position plus chunk size) cannot fire below `2 ^ 64` input bytes and is
  not modelled.
* The continuation-passing parser (`Parse::Cont` and friends) is modelled by
  direct-style functions.  The drivers in the source
  (`parse_dbus_object_from_buffer`, `DBusObjectSignature::toTypes`,
  `receive_dbus_message`) feed each continuation the full
  `maxRequiredBytes()` chunk it asks for, and `Parse::parse` adds the chunk
  size to the byte counter *before* invoking the continuation; the
  direct-style functions reproduce exactly that behaviour, including the
  positions stored in `ParseError` values.
* The object parser uses a `fuel` argument to make the recursion structural;
  the source can genuinely loop forever (an array whose declared payload
  length is positive while its element type serializes to zero bytes), which
  fuel exhaustion models as an error.
-/

/-! ## Endianness and byte encodings (`endianness.hpp`, `SerializeToBuffer`) -/

inductive Endianness where
  | littleEndian
  | bigEndian
deriving DecidableEq

/-- Little-endian byte encoding of `x` in `w` bytes (low byte first).
`htole16/htole32/htole64` followed by a memory write produce exactly these
bytes; only the low `8 * w` bits of `x` are represented. -/
def leBytes : Nat → Nat → List Nat
  | 0, _ => []
  | w + 1, x => x % 256 :: leBytes w (x / 256)

/-- The bytes written for a `w`-byte integer in endianness `e`
(`SerializeToBuffer::writeUint16/writeUint32/writeUint64`). -/
def natBytes (e : Endianness) (w x : Nat) : List Nat :=
  match e with
  | .littleEndian => leBytes w x
  | .bigEndian => (leBytes w x).reverse

/-- Little-endian decoding of a byte list (`le16toh/le32toh/le64toh` reading
from memory). -/
def leDecode : List Nat → Nat
  | [] => 0
  | b :: bs => b + 256 * leDecode bs

/-- Decoding a `w`-byte integer read from the wire in endianness `e`
(`ParseUint16/ParseUint32/ParseUint64`). -/
def decodeNat (e : Endianness) (bs : List Nat) : Nat :=
  match e with
  | .littleEndian => leDecode bs
  | .bigEndian => leDecode bs.reverse

@[simp] theorem leBytes_length (w x : Nat) : (leBytes w x).length = w := by
  induction w generalizing x with
  | zero => rfl
  | succ w ih => simp [leBytes, ih]

@[simp] theorem natBytes_length (e : Endianness) (w x : Nat) :
    (natBytes e w x).length = w := by
  cases e <;> simp [natBytes]

theorem leDecode_leBytes (w x : Nat) : leDecode (leBytes w x) = x % 2 ^ (8 * w) := by
  induction w generalizing x with
  | zero => simp [leBytes, leDecode, Nat.mod_one]
  | succ w ih =>
    simp only [leBytes, leDecode, ih]
    have h1 : 2 ^ (8 * (w + 1)) = 256 * 2 ^ (8 * w) := by ring
    rw [h1, Nat.mod_mul]

theorem decodeNat_natBytes (e : Endianness) (w x : Nat) :
    decodeNat e (natBytes e w x) = x % 2 ^ (8 * w) := by
  cases e <;> simp [decodeNat, natBytes, leDecode_leBytes]

theorem leBytes_lt (w x : Nat) : ∀ b ∈ leBytes w x, b < 256 := by
  induction w generalizing x with
  | zero => simp [leBytes]
  | succ w ih =>
    intro b hb
    simp only [leBytes, List.mem_cons] at hb
    rcases hb with h | h
    · omega
    · exact ih _ b h

/-! ## Alignment arithmetic (`alignup`, `parse_alignment`) -/

/-- `alignup pos a` from `dbus_serialize.hpp`: round `pos` up to a multiple
of `a`.  The source computes `(pos + a - 1) & ~(a - 1)` for a power-of-two
`a`, which for `0 < a ∣ 2 ^ 64` equals this division form. -/
def alignup (pos a : Nat) : Nat := ((pos + a - 1) / a) * a

/-- Number of padding bytes `insertPadding(a)` writes at position `pos`. -/
def padLen (a pos : Nat) : Nat := alignup pos a - pos

/-- Number of padding bytes the parser consumes at position `pos`
(`parse_alignment`): the source computes `(t.alignment() - 1) & -pos` in
`size_t` arithmetic, which for a power-of-two alignment dividing `2 ^ 64`
equals `(-pos) mod a`, i.e. this expression. -/
def parsePad (a pos : Nat) : Nat := (a - pos % a) % a

theorem alignup_eq (pos a : Nat) (ha : 0 < a) :
    alignup pos a = pos + (a - pos % a) % a := by
  have h := Nat.div_add_mod pos a
  have hlt : pos % a < a := Nat.mod_lt _ ha
  unfold alignup
  rcases Nat.eq_zero_or_pos (pos % a) with h0 | h0
  · have h1 : pos + a - 1 = (a - 1) + a * (pos / a) := by omega
    rw [h1, Nat.add_mul_div_left _ _ ha, Nat.div_eq_of_lt (by omega), Nat.zero_add, h0,
      Nat.sub_zero, Nat.mod_self, Nat.add_zero, Nat.mul_comm]
    omega
  · have h1 : pos + a - 1 = (pos % a - 1) + a * (pos / a + 1) := by
      have h2 : a * (pos / a + 1) = a * (pos / a) + a := by ring
      omega
    rw [h1, Nat.add_mul_div_left _ _ ha, Nat.div_eq_of_lt (by omega), Nat.zero_add,
      Nat.mod_eq_of_lt (by omega)]
    have h3 : (pos / a + 1) * a = a * (pos / a) + a := by ring
    omega

theorem parsePad_eq_padLen (a pos : Nat) (ha : 0 < a) :
    parsePad a pos = padLen a pos := by
  unfold parsePad padLen
  rw [alignup_eq pos a ha]
  omega

theorem le_alignup (pos a : Nat) (ha : 0 < a) : pos ≤ alignup pos a := by
  rw [alignup_eq pos a ha]; omega

theorem alignup_lt (pos a : Nat) (ha : 0 < a) : alignup pos a < pos + a := by
  rw [alignup_eq pos a ha]
  have : (a - pos % a) % a < a := Nat.mod_lt _ ha
  omega

theorem dvd_alignup (pos a : Nat) : a ∣ alignup pos a := by
  unfold alignup
  exact ⟨_, Nat.mul_comm _ _⟩

theorem alignup_self (pos a : Nat) (h : a ∣ pos) : alignup pos a = pos := by
  rcases Nat.eq_zero_or_pos a with h0 | h0
  · subst h0; simpa [alignup] using (Nat.eq_zero_of_zero_dvd h).symm
  · rcases h with ⟨k, rfl⟩
    unfold alignup
    have h1 : a * k + a - 1 = (a - 1) + a * k := by omega
    rw [h1, Nat.add_mul_div_left _ _ h0, Nat.div_eq_of_lt (by omega), Nat.zero_add,
      Nat.mul_comm]

/-! ## The type family (`DBusType` and subclasses, `dbus.hpp`) -/

/-- The closed family of D-Bus types.  Each C++ subclass of `DBusType`
becomes one constructor; container types hold their sub-types by value
(the C++ reference-plus-arena ownership scheme is irrelevant to a deep
embedding). -/
inductive DBusType where
  | char
  | boolean
  | uint16
  | int16
  | uint32
  | int32
  | uint64
  | int64
  | double
  | unixFD
  | string
  | path
  | signature
  | variant
  | dictEntry (keyType valueType : DBusType)
  | array (baseType : DBusType)
  | struct (fieldTypes : List DBusType)

/-- `DBusType::alignment()` of each subclass.  Note that the source returns
`sizeof(int32_t)` = 4 for `DBusTypeDouble::alignment()` (dbus.hpp line 467). -/
def DBusType.alignment : DBusType → Nat
  | .char => 1
  | .boolean => 4
  | .uint16 => 2
  | .int16 => 2
  | .uint32 => 4
  | .int32 => 4
  | .uint64 => 8
  | .int64 => 8
  | .double => 4
  | .unixFD => 4
  | .string => 4
  | .path => 4
  | .signature => 1
  | .variant => 1
  | .dictEntry _ _ => 8
  | .array _ => 4
  | .struct _ => 8

theorem DBusType.alignment_pos (t : DBusType) : 0 < t.alignment := by
  cases t <;> simp [DBusType.alignment]

theorem DBusType.alignment_dvd_eight (t : DBusType) : t.alignment ∣ 8 := by
  cases t <;> simp [DBusType.alignment] <;> omega

mutual

/-- `DBusType::toString()`: the signature string of a type, as a byte list.
Each subclass writes its letter in `serialize` (`'y' = 121`, `'b' = 98`,
`'q' = 113`, `'n' = 110`, `'u' = 117`, `'i' = 105`, `'t' = 116`,
`'x' = 120`, `'d' = 100`, `'h' = 104`, `'s' = 115`, `'o' = 111`,
`'g' = 103`, `'v' = 118`, `'a' = 97`, parens `40`/`41`, braces `123`/`125`). -/
def DBusType.toString : DBusType → List Nat
  | .char => [121]
  | .boolean => [98]
  | .uint16 => [113]
  | .int16 => [110]
  | .uint32 => [117]
  | .int32 => [105]
  | .uint64 => [116]
  | .int64 => [120]
  | .double => [100]
  | .unixFD => [104]
  | .string => [115]
  | .path => [111]
  | .signature => [103]
  | .variant => [118]
  | .dictEntry k v => 123 :: (k.toString ++ v.toString ++ [125])
  | .array t => 97 :: t.toString
  | .struct fs => 40 :: DBusType.listToString fs ++ [41]

/-- Signature bytes of a sequence of types, in order (the loop in
`DBusTypeStruct::serialize`). -/
def DBusType.listToString : List DBusType → List Nat
  | [] => []
  | t :: ts => t.toString ++ DBusType.listToString ts

end

/-- `cloneType` (dbus.cpp): a deep copy of a type.  In the deep embedding the
arena is gone and the copy is built with the same constructors. -/
def cloneType : DBusType → DBusType
  | .char => .char
  | .boolean => .boolean
  | .uint16 => .uint16
  | .int16 => .int16
  | .uint32 => .uint32
  | .int32 => .int32
  | .uint64 => .uint64
  | .int64 => .int64
  | .double => .double
  | .unixFD => .unixFD
  | .string => .string
  | .path => .path
  | .signature => .signature
  | .variant => .variant
  | .dictEntry k v => .dictEntry (cloneType k) (cloneType v)
  | .array t => .array (cloneType t)
  | .struct fs => .struct (cloneTypeList fs)
where
  cloneTypeList : List DBusType → List DBusType
  | [] => []
  | t :: ts => cloneType t :: cloneTypeList ts

/-! ## The value tree (`DBusObject` and subclasses) -/

/-- The closed family of D-Bus values.  Signed integers and doubles are
stored as their bit patterns (see the header comment); `string`, `path` and
`signature` payloads are byte lists.  An array value records the base type
that its C++ `arrayType_` member references. -/
inductive DBusObject where
  | char (c : Nat)
  | boolean (b : Bool)
  | uint16 (x : Nat)
  | int16 (x : Nat)
  | uint32 (x : Nat)
  | int32 (x : Nat)
  | uint64 (x : Nat)
  | int64 (x : Nat)
  | double (bits : Nat)
  | unixFD (i : Nat)
  | string (s : List Nat)
  | path (s : List Nat)
  | signature (s : List Nat)
  | variant (obj : DBusObject)
  | dictEntry (key value : DBusObject)
  | array (baseType : DBusType) (elements : List DBusObject)
  | struct (elements : List DBusObject)

mutual

/-- `DBusObject::getType()`: primitives return their singleton type, a
dict entry returns the `DBusTypeDictEntry` built from its children, an array
returns `DBusTypeArray(baseType)`, and a struct returns the
`DBusTypeStruct` built from its elements' types
(`DBusObjectSeq::elementTypes`). -/
def DBusObject.getType : DBusObject → DBusType
  | .char _ => .char
  | .boolean _ => .boolean
  | .uint16 _ => .uint16
  | .int16 _ => .int16
  | .uint32 _ => .uint32
  | .int32 _ => .int32
  | .uint64 _ => .uint64
  | .int64 _ => .int64
  | .double _ => .double
  | .unixFD _ => .unixFD
  | .string _ => .string
  | .path _ => .path
  | .signature _ => .signature
  | .variant _ => .variant
  | .dictEntry k v => .dictEntry k.getType v.getType
  | .array bt _ => .array bt
  | .struct es => .struct (DBusObject.getTypes es)

/-- The element types of a sequence (`DBusObjectSeq::elementTypes`). -/
def DBusObject.getTypes : List DBusObject → List DBusType
  | [] => []
  | o :: os => o.getType :: DBusObject.getTypes os

end

/-- `DBusObjectArray::mk`: an empty element vector goes through `mk0`, which
clones the base type; a non-empty one goes through `mk1`, which takes the
base type from element zero (the `baseType` argument is ignored and the
elements are not checked against each other). -/
def DBusObjectArray.mk (baseType : DBusType) (elements : List DBusObject) : DBusObject :=
  match elements with
  | [] => .array (cloneType baseType) []
  | e :: es => .array e.getType (e :: es)

/-! ## Induction principles and decidable equality -/

/-- Structural induction for `DBusType` with a membership hypothesis for
struct fields (the auto-generated recursor of the nested inductive is
awkward to use directly). -/
theorem DBusType.typeInduction (motive : DBusType → Prop)
    (hchar : motive .char) (hboolean : motive .boolean)
    (huint16 : motive .uint16) (hint16 : motive .int16)
    (huint32 : motive .uint32) (hint32 : motive .int32)
    (huint64 : motive .uint64) (hint64 : motive .int64)
    (hdouble : motive .double) (hunixFD : motive .unixFD)
    (hstring : motive .string) (hpath : motive .path)
    (hsignature : motive .signature) (hvariant : motive .variant)
    (hdictEntry : ∀ k v, motive k → motive v → motive (.dictEntry k v))
    (harray : ∀ t, motive t → motive (.array t))
    (hstruct : ∀ fs, (∀ t ∈ fs, motive t) → motive (.struct fs)) :
    ∀ t, motive t := by
  have key : ∀ n t, sizeOf t ≤ n → motive t := by
    intro n
    induction n using Nat.strong_induction_on with
    | _ n ih =>
      intro t hle
      cases t with
      | char => exact hchar
      | boolean => exact hboolean
      | uint16 => exact huint16
      | int16 => exact hint16
      | uint32 => exact huint32
      | int32 => exact hint32
      | uint64 => exact huint64
      | int64 => exact hint64
      | double => exact hdouble
      | unixFD => exact hunixFD
      | string => exact hstring
      | path => exact hpath
      | signature => exact hsignature
      | variant => exact hvariant
      | dictEntry k v =>
        simp only [DBusType.dictEntry.sizeOf_spec] at hle
        exact hdictEntry k v (ih (sizeOf k) (by omega) k le_rfl)
          (ih (sizeOf v) (by omega) v le_rfl)
      | array t =>
        simp only [DBusType.array.sizeOf_spec] at hle
        exact harray t (ih (sizeOf t) (by omega) t le_rfl)
      | struct fs =>
        simp only [DBusType.struct.sizeOf_spec] at hle
        refine hstruct fs (fun t ht => ih (sizeOf t) ?_ t le_rfl)
        have := List.sizeOf_lt_of_mem ht
        omega
  exact fun t => key (sizeOf t) t le_rfl

/-- Structural induction for `DBusObject` with membership hypotheses for
array and struct elements. -/
theorem DBusObject.objectInduction (motive : DBusObject → Prop)
    (hchar : ∀ c, motive (.char c)) (hboolean : ∀ b, motive (.boolean b))
    (huint16 : ∀ x, motive (.uint16 x)) (hint16 : ∀ x, motive (.int16 x))
    (huint32 : ∀ x, motive (.uint32 x)) (hint32 : ∀ x, motive (.int32 x))
    (huint64 : ∀ x, motive (.uint64 x)) (hint64 : ∀ x, motive (.int64 x))
    (hdouble : ∀ x, motive (.double x)) (hunixFD : ∀ x, motive (.unixFD x))
    (hstring : ∀ s, motive (.string s)) (hpath : ∀ s, motive (.path s))
    (hsignature : ∀ s, motive (.signature s))
    (hvariant : ∀ o, motive o → motive (.variant o))
    (hdictEntry : ∀ k v, motive k → motive v → motive (.dictEntry k v))
    (harray : ∀ bt es, (∀ o ∈ es, motive o) → motive (.array bt es))
    (hstruct : ∀ es, (∀ o ∈ es, motive o) → motive (.struct es)) :
    ∀ o, motive o := by
  have key : ∀ n o, sizeOf o ≤ n → motive o := by
    intro n
    induction n using Nat.strong_induction_on with
    | _ n ih =>
      intro o hle
      cases o with
      | char c => exact hchar c
      | boolean b => exact hboolean b
      | uint16 x => exact huint16 x
      | int16 x => exact hint16 x
      | uint32 x => exact huint32 x
      | int32 x => exact hint32 x
      | uint64 x => exact huint64 x
      | int64 x => exact hint64 x
      | double x => exact hdouble x
      | unixFD x => exact hunixFD x
      | string s => exact hstring s
      | path s => exact hpath s
      | signature s => exact hsignature s
      | variant o =>
        simp only [DBusObject.variant.sizeOf_spec] at hle
        exact hvariant o (ih (sizeOf o) (by omega) o le_rfl)
      | dictEntry k v =>
        simp only [DBusObject.dictEntry.sizeOf_spec] at hle
        exact hdictEntry k v (ih (sizeOf k) (by omega) k le_rfl)
          (ih (sizeOf v) (by omega) v le_rfl)
      | array bt es =>
        simp only [DBusObject.array.sizeOf_spec] at hle
        refine harray bt es (fun o ho => ih (sizeOf o) ?_ o le_rfl)
        have := List.sizeOf_lt_of_mem ho
        omega
      | struct es =>
        simp only [DBusObject.struct.sizeOf_spec] at hle
        refine hstruct es (fun o ho => ih (sizeOf o) ?_ o le_rfl)
        have := List.sizeOf_lt_of_mem ho
        omega
  exact fun o => key (sizeOf o) o le_rfl


/-! ## Well-formed values

`wf` captures the representation invariants that the C++ value classes
maintain by construction: scalar fields are genuine machine integers of
their width (enforced by the C++ types `char`, `uint16_t`, ... themselves),
string/path lengths fit in a `uint32_t` and signature lengths in a
`uint8_t` (the constructor assertions in dbus.cpp), a variant's cached
signature fits in a byte (the `DBusObjectSignature` constructor assertion),
and all elements of an array have the array's base type (the documented
`Array` invariant). -/

mutual

def DBusObject.wf : DBusObject → Prop
  | .char c => c < 256
  | .boolean _ => True
  | .uint16 x => x < 2 ^ 16
  | .int16 x => x < 2 ^ 16
  | .uint32 x => x < 2 ^ 32
  | .int32 x => x < 2 ^ 32
  | .uint64 x => x < 2 ^ 64
  | .int64 x => x < 2 ^ 64
  | .double x => x < 2 ^ 64
  | .unixFD x => x < 2 ^ 32
  | .string s => s.length < 2 ^ 32 ∧ ∀ b ∈ s, b < 256
  | .path s => s.length < 2 ^ 32 ∧ ∀ b ∈ s, b < 256
  | .signature s => s.length < 2 ^ 8 ∧ ∀ b ∈ s, b < 256
  | .variant o => o.wf ∧ (DBusObject.getType o).toString.length < 2 ^ 8
  | .dictEntry k v => k.wf ∧ v.wf
  | .array bt es => DBusObject.wfList es ∧ DBusObject.typesAre bt es
  | .struct es => DBusObject.wfList es

def DBusObject.wfList : List DBusObject → Prop
  | [] => True
  | o :: os => o.wf ∧ DBusObject.wfList os

def DBusObject.typesAre (bt : DBusType) : List DBusObject → Prop
  | [] => True
  | o :: os => o.getType = bt ∧ DBusObject.typesAre bt os

end

/-! ## The two-pass serializer

Pass 1 (`SerializerInitArraySizes`, a `SerializerDryRunBase`): only a byte
counter advances; `recordArraySize(f)` first creates a slot for the array
and then runs `f`, so an outer array's payload length precedes the lengths
of the arrays nested inside it.  The embedding returns the final counter and
the recorded sizes in order.

Pass 2 (`SerializeToBuffer<endianness>`): emits the actual bytes, reading
the i-th recorded size at the i-th `recordArraySize` call.  The embedding
returns the bytes, the final counter and the remaining (unconsumed) sizes.
The C++ `arraySizes_.at(arrayCount_++)` would throw if the vector were
exhausted; the pipeline `dbus_object_to_buffer` always supplies exactly
enough, so the embedding just defaults to 0 in the unreachable case. -/

mutual

/-- `DBusObject::serializeAfterPadding` run against `SerializerInitArraySizes`:
returns the advanced byte counter and the array sizes recorded, in order.
Each child `serialize` call is `insertPadding(child alignment)` followed by
the child's `serializeAfterPadding`, hence the inline `alignup`. -/
def sizePassAfter : DBusObject → Nat → Nat × List Nat
  | .char _, pos => (pos + 1, [])
  | .boolean _, pos => (pos + 4, [])
  | .uint16 _, pos => (pos + 2, [])
  | .int16 _, pos => (pos + 2, [])
  | .uint32 _, pos => (pos + 4, [])
  | .int32 _, pos => (pos + 4, [])
  | .uint64 _, pos => (pos + 8, [])
  | .int64 _, pos => (pos + 8, [])
  | .double _, pos => (pos + 8, [])
  | .unixFD _, pos => (pos + 4, [])
  | .string s, pos => (pos + 4 + (s.length % 2 ^ 32 + 1), [])
  | .path s, pos => (pos + 4 + (s.length % 2 ^ 32 + 1), [])
  | .signature s, pos => (pos + 1 + (s.length % 2 ^ 8 + 1), [])
  | .variant o, pos =>
    -- signature_ (one length byte, the signature bytes, one NUL; alignment 1
    -- so no padding), then the child with its padding.
    let sig := (DBusObject.getType o).toString
    let pos1 := pos + 1 + (sig.length % 2 ^ 8 + 1)
    sizePassAfter o (alignup pos1 (DBusObject.getType o).alignment)
  | .dictEntry k v, pos =>
    let r1 := sizePassAfter k (alignup pos (DBusObject.getType k).alignment)
    let r2 := sizePassAfter v (alignup r1.1 (DBusObject.getType v).alignment)
    (r2.1, r1.2 ++ r2.2)
  | .array bt es, pos =>
    -- recordArraySize: writeUint32 (4 bytes), insertPadding(base alignment),
    -- then the elements; the recorded size is the byte count of the
    -- elements, measured from the end of the padding.
    let p2 := alignup (pos + 4) bt.alignment
    let r := sizePassSeq es p2
    (r.1, (r.1 - p2) :: r.2)
  | .struct es, pos => sizePassSeq es pos

/-- `DBusObjectSeq::serialize` against `SerializerInitArraySizes`. -/
def sizePassSeq : List DBusObject → Nat → Nat × List Nat
  | [], pos => (pos, [])
  | o :: os, pos =>
    let r1 := sizePassAfter o (alignup pos (DBusObject.getType o).alignment)
    let r2 := sizePassSeq os r1.1
    (r2.1, r1.2 ++ r2.2)

end

/-- `DBusObject::serialize` against `SerializerInitArraySizes`. -/
def sizePass (o : DBusObject) (pos : Nat) : Nat × List Nat :=
  sizePassAfter o (alignup pos (DBusObject.getType o).alignment)

/-- `DBusObject::serializedSize()` (a dry run from position 0). -/
def DBusObject.serializedSize (o : DBusObject) : Nat := (sizePass o 0).1

mutual

/-- `DBusObject::serializeAfterPadding` run against
`SerializeToBuffer<endianness>`: returns the emitted bytes, the advanced
position and the array sizes not yet consumed. -/
def emitAfter (e : Endianness) : DBusObject → Nat → List Nat → List Nat × Nat × List Nat
  | .char c, pos, szs => ([c % 256], pos + 1, szs)
  | .boolean b, pos, szs => (natBytes e 4 (if b then 1 else 0), pos + 4, szs)
  | .uint16 x, pos, szs => (natBytes e 2 x, pos + 2, szs)
  | .int16 x, pos, szs => (natBytes e 2 x, pos + 2, szs)
  | .uint32 x, pos, szs => (natBytes e 4 x, pos + 4, szs)
  | .int32 x, pos, szs => (natBytes e 4 x, pos + 4, szs)
  | .uint64 x, pos, szs => (natBytes e 8 x, pos + 8, szs)
  | .int64 x, pos, szs => (natBytes e 8 x, pos + 8, szs)
  | .double x, pos, szs => (natBytes e 8 x, pos + 8, szs)
  | .unixFD x, pos, szs => (natBytes e 4 x, pos + 4, szs)
  | .string s, pos, szs =>
    -- writeUint32(len) then writeBytes(str.c_str(), len + 1) with
    -- len = (uint32_t)size: the NUL terminator comes from c_str().
    (natBytes e 4 s.length ++ (s ++ [0]).take (s.length % 2 ^ 32 + 1),
      pos + 4 + (s.length % 2 ^ 32 + 1), szs)
  | .path s, pos, szs =>
    (natBytes e 4 s.length ++ (s ++ [0]).take (s.length % 2 ^ 32 + 1),
      pos + 4 + (s.length % 2 ^ 32 + 1), szs)
  | .signature s, pos, szs =>
    -- writeByte((uint8_t)size) then writeBytes(str.c_str(), len + 1).
    (s.length % 2 ^ 8 :: (s ++ [0]).take (s.length % 2 ^ 8 + 1),
      pos + 1 + (s.length % 2 ^ 8 + 1), szs)
  | .variant o, pos, szs =>
    let sig := (DBusObject.getType o).toString
    let b0 := sig.length % 2 ^ 8 :: (sig ++ [0]).take (sig.length % 2 ^ 8 + 1)
    let pos1 := pos + 1 + (sig.length % 2 ^ 8 + 1)
    let pos2 := alignup pos1 (DBusObject.getType o).alignment
    let r := emitAfter e o pos2 szs
    (b0 ++ List.replicate (pos2 - pos1) 0 ++ r.1, r.2)
  | .dictEntry k v, pos, szs =>
    let pos1 := alignup pos (DBusObject.getType k).alignment
    let r1 := emitAfter e k pos1 szs
    let pos2 := alignup r1.2.1 (DBusObject.getType v).alignment
    let r2 := emitAfter e v pos2 r1.2.2
    (List.replicate (pos1 - pos) 0 ++ r1.1 ++
      (List.replicate (pos2 - r1.2.1) 0 ++ r2.1), r2.2)
  | .array bt es, pos, szs =>
    let sz := szs.head?.getD 0
    let p2 := alignup (pos + 4) bt.alignment
    let r := emitSeq e es p2 szs.tail
    (natBytes e 4 sz ++ List.replicate (p2 - (pos + 4)) 0 ++ r.1, r.2)
  | .struct es, pos, szs => emitSeq e es pos szs

/-- `DBusObjectSeq::serialize` against `SerializeToBuffer<endianness>`. -/
def emitSeq (e : Endianness) : List DBusObject → Nat → List Nat → List Nat × Nat × List Nat
  | [], pos, szs => ([], pos, szs)
  | o :: os, pos, szs =>
    let pos1 := alignup pos (DBusObject.getType o).alignment
    let r1 := emitAfter e o pos1 szs
    let r2 := emitSeq e os r1.2.1 r1.2.2
    (List.replicate (pos1 - pos) 0 ++ r1.1 ++ r2.1, r2.2)

end

/-- `DBusObject::serialize` against `SerializeToBuffer<endianness>`. -/
def emitObj (e : Endianness) (o : DBusObject) (pos : Nat) (szs : List Nat) :
    List Nat × Nat × List Nat :=
  let pos1 := alignup pos (DBusObject.getType o).alignment
  let r := emitAfter e o pos1 szs
  (List.replicate (pos1 - pos) 0 ++ r.1, r.2)

/-- `dbus_object_to_buffer<endianness>` (dbus_unit_tests.cpp): run the
size pass, then emit into a buffer using the recorded array sizes. -/
def dbus_object_to_buffer (e : Endianness) (o : DBusObject) : List Nat :=
  (emitObj e o 0 (sizePass o 0).2).1

/-! ## One-pass reference serializer

`serAfter`/`serSeq`/`serObj` compute the same bytes as the two-pass
pipeline but resolve each array length locally (as the byte length of the
serialized element section).  `emit_eq_ser` below proves that the two-pass
pipeline produces exactly these bytes; all further reasoning uses the
one-pass form. -/

mutual

def serAfter (e : Endianness) : DBusObject → Nat → List Nat
  | .char c, _ => [c % 256]
  | .boolean b, _ => natBytes e 4 (if b then 1 else 0)
  | .uint16 x, _ => natBytes e 2 x
  | .int16 x, _ => natBytes e 2 x
  | .uint32 x, _ => natBytes e 4 x
  | .int32 x, _ => natBytes e 4 x
  | .uint64 x, _ => natBytes e 8 x
  | .int64 x, _ => natBytes e 8 x
  | .double x, _ => natBytes e 8 x
  | .unixFD x, _ => natBytes e 4 x
  | .string s, _ => natBytes e 4 s.length ++ (s ++ [0]).take (s.length % 2 ^ 32 + 1)
  | .path s, _ => natBytes e 4 s.length ++ (s ++ [0]).take (s.length % 2 ^ 32 + 1)
  | .signature s, _ => s.length % 2 ^ 8 :: (s ++ [0]).take (s.length % 2 ^ 8 + 1)
  | .variant o, pos =>
    let sig := (DBusObject.getType o).toString
    let b0 := sig.length % 2 ^ 8 :: (sig ++ [0]).take (sig.length % 2 ^ 8 + 1)
    let pos1 := pos + 1 + (sig.length % 2 ^ 8 + 1)
    let pos2 := alignup pos1 (DBusObject.getType o).alignment
    b0 ++ List.replicate (pos2 - pos1) 0 ++ serAfter e o pos2
  | .dictEntry k v, pos =>
    let pos1 := alignup pos (DBusObject.getType k).alignment
    let b1 := serAfter e k pos1
    let pos2 := alignup (pos1 + b1.length) (DBusObject.getType v).alignment
    List.replicate (pos1 - pos) 0 ++ b1 ++
      (List.replicate (pos2 - (pos1 + b1.length)) 0 ++ serAfter e v pos2)
  | .array bt es, pos =>
    let p2 := alignup (pos + 4) bt.alignment
    let bs := serSeq e es p2
    natBytes e 4 bs.length ++ List.replicate (p2 - (pos + 4)) 0 ++ bs
  | .struct es, pos => serSeq e es pos

def serSeq (e : Endianness) : List DBusObject → Nat → List Nat
  | [], _ => []
  | o :: os, pos =>
    let pos1 := alignup pos (DBusObject.getType o).alignment
    let b1 := serAfter e o pos1
    List.replicate (pos1 - pos) 0 ++ b1 ++ serSeq e os (pos1 + b1.length)

end

def serObj (e : Endianness) (o : DBusObject) (pos : Nat) : List Nat :=
  let pos1 := alignup pos (DBusObject.getType o).alignment
  List.replicate (pos1 - pos) 0 ++ serAfter e o pos1

/-! ## The pipeline emits the one-pass bytes -/

theorem sizePassSeq_le (os : List DBusObject)
    (ih : ∀ o ∈ os, ∀ pos, pos ≤ (sizePassAfter o pos).1) :
    ∀ pos, pos ≤ (sizePassSeq os pos).1 := by
  induction os with
  | nil => intro pos; simp [sizePassSeq]
  | cons o os ihos =>
    intro pos
    simp only [sizePassSeq]
    have h1 := le_alignup pos (DBusObject.getType o).alignment
      (DBusType.alignment_pos _)
    have h2 := ih o (by simp) (alignup pos (DBusObject.getType o).alignment)
    have h3 := ihos (fun o ho pos => ih o (by simp [ho]) pos)
      (sizePassAfter o (alignup pos (DBusObject.getType o).alignment)).1
    omega

theorem sizePassAfter_le : ∀ (o : DBusObject) (pos : Nat), pos ≤ (sizePassAfter o pos).1 := by
  intro o
  induction o using DBusObject.objectInduction with
  | hvariant o ih =>
    intro pos
    simp only [sizePassAfter]
    have h1 := le_alignup (pos + 1 + ((DBusObject.getType o).toString.length % 2 ^ 8 + 1))
      (DBusObject.getType o).alignment (DBusType.alignment_pos _)
    have h2 := ih (alignup (pos + 1 + ((DBusObject.getType o).toString.length % 2 ^ 8 + 1))
      (DBusObject.getType o).alignment)
    omega
  | hdictEntry k v ihk ihv =>
    intro pos
    simp only [sizePassAfter]
    have h1 := le_alignup pos (DBusObject.getType k).alignment (DBusType.alignment_pos _)
    have h2 := ihk (alignup pos (DBusObject.getType k).alignment)
    have h3 := le_alignup (sizePassAfter k (alignup pos (DBusObject.getType k).alignment)).1
      (DBusObject.getType v).alignment (DBusType.alignment_pos _)
    have h4 := ihv (alignup (sizePassAfter k (alignup pos (DBusObject.getType k).alignment)).1
      (DBusObject.getType v).alignment)
    omega
  | harray bt es ih =>
    intro pos
    simp only [sizePassAfter]
    have h1 := le_alignup (pos + 4) bt.alignment (DBusType.alignment_pos _)
    have h2 := sizePassSeq_le es (fun o ho pos => ih o ho pos) (alignup (pos + 4) bt.alignment)
    omega
  | hstruct es ih =>
    intro pos
    simp only [sizePassAfter]
    exact sizePassSeq_le es (fun o ho pos => ih o ho pos) pos
  | _ =>
    intro pos
    simp only [sizePassAfter]
    omega

theorem serSeq_length (e : Endianness) (os : List DBusObject)
    (ihlen : ∀ o ∈ os, ∀ pos, (serAfter e o pos).length = (sizePassAfter o pos).1 - pos)
    (ihle : ∀ o ∈ os, ∀ pos, pos ≤ (sizePassAfter o pos).1) :
    ∀ pos, (serSeq e os pos).length = (sizePassSeq os pos).1 - pos := by
  induction os with
  | nil => intro pos; simp [serSeq, sizePassSeq]
  | cons o os ihos =>
    intro pos
    simp only [serSeq, sizePassSeq, List.length_append, List.length_replicate]
    set pos1 := alignup pos (DBusObject.getType o).alignment with hpos1
    have h0 := le_alignup pos (DBusObject.getType o).alignment (DBusType.alignment_pos _)
    have h1 := ihlen o (by simp) pos1
    have h2 := ihle o (by simp) pos1
    have h3 : pos1 + (serAfter e o pos1).length = (sizePassAfter o pos1).1 := by omega
    rw [h3]
    have h4 := ihos (fun o ho => ihlen o (by simp [ho])) (fun o ho => ihle o (by simp [ho]))
      (sizePassAfter o pos1).1
    have h5 := sizePassSeq_le os (fun o ho pos => ihle o (by simp [ho]) pos)
      (sizePassAfter o pos1).1
    omega

theorem serAfter_length (e : Endianness) :
    ∀ (o : DBusObject) (pos : Nat),
      (serAfter e o pos).length = (sizePassAfter o pos).1 - pos := by
  intro o
  induction o using DBusObject.objectInduction with
  | hstring s =>
    intro pos
    simp only [serAfter, sizePassAfter, List.length_append, List.length_take,
      List.length_cons, natBytes_length]
    have : s.length % 2 ^ 32 ≤ s.length := Nat.mod_le _ _
    simp only [List.length_append, List.length_cons, List.length_nil]
    omega
  | hpath s =>
    intro pos
    simp only [serAfter, sizePassAfter, List.length_append, List.length_take,
      List.length_cons, natBytes_length]
    have : s.length % 2 ^ 32 ≤ s.length := Nat.mod_le _ _
    simp only [List.length_append, List.length_cons, List.length_nil]
    omega
  | hsignature s =>
    intro pos
    simp only [serAfter, sizePassAfter, List.length_cons, List.length_take]
    have : s.length % 2 ^ 8 ≤ s.length := Nat.mod_le _ _
    simp only [List.length_append, List.length_cons, List.length_nil]
    omega
  | hvariant o ih =>
    intro pos
    simp only [serAfter, sizePassAfter, List.length_append, List.length_cons,
      List.length_replicate, List.length_take]
    set sig := (DBusObject.getType o).toString with hsig
    set pos1 := pos + 1 + (sig.length % 2 ^ 8 + 1) with hpos1
    set pos2 := alignup pos1 (DBusObject.getType o).alignment with hpos2
    have h0 : sig.length % 2 ^ 8 ≤ sig.length := Nat.mod_le _ _
    have h1 := le_alignup pos1 (DBusObject.getType o).alignment (DBusType.alignment_pos _)
    have h2 := ih pos2
    have h3 := sizePassAfter_le o pos2
    simp only [List.length_append, List.length_cons, List.length_nil]
    omega
  | hdictEntry k v ihk ihv =>
    intro pos
    simp only [serAfter, sizePassAfter, List.length_append, List.length_replicate]
    set pos1 := alignup pos (DBusObject.getType k).alignment with hpos1
    have h0 := le_alignup pos (DBusObject.getType k).alignment (DBusType.alignment_pos _)
    have h1 := ihk pos1
    have h2 := sizePassAfter_le k pos1
    have h3 : pos1 + (serAfter e k pos1).length = (sizePassAfter k pos1).1 := by omega
    rw [h3]
    set mid := (sizePassAfter k pos1).1 with hmid
    set pos2 := alignup mid (DBusObject.getType v).alignment with hpos2
    have h4 := le_alignup mid (DBusObject.getType v).alignment (DBusType.alignment_pos _)
    have h5 := ihv pos2
    have h6 := sizePassAfter_le v pos2
    omega
  | harray bt es ih =>
    intro pos
    simp only [serAfter, sizePassAfter, List.length_append, List.length_replicate,
      natBytes_length]
    set p2 := alignup (pos + 4) bt.alignment with hp2
    have h0 := le_alignup (pos + 4) bt.alignment (DBusType.alignment_pos _)
    have h1 := serSeq_length e es (fun o ho pos => ih o ho pos)
      (fun o ho pos => sizePassAfter_le o pos) p2
    have h2 := sizePassSeq_le es (fun o ho pos => sizePassAfter_le o pos) p2
    omega
  | hstruct es ih =>
    intro pos
    exact serSeq_length e es (fun o ho pos => ih o ho pos)
      (fun o ho pos => sizePassAfter_le o pos) pos
  | _ =>
    intro pos
    simp only [serAfter, sizePassAfter, natBytes_length, List.length_cons,
      List.length_nil]
    omega

theorem emitSeq_eq_ser (e : Endianness) (os : List DBusObject)
    (ih : ∀ o ∈ os, ∀ pos extra,
      emitAfter e o pos ((sizePassAfter o pos).2 ++ extra) =
        (serAfter e o pos, (sizePassAfter o pos).1, extra)) :
    ∀ pos extra,
      emitSeq e os pos ((sizePassSeq os pos).2 ++ extra) =
        (serSeq e os pos, (sizePassSeq os pos).1, extra) := by
  induction os with
  | nil => intro pos extra; simp [emitSeq, sizePassSeq, serSeq]
  | cons o os ihos =>
    intro pos extra
    simp only [sizePassSeq, emitSeq, serSeq, List.append_assoc]
    set pos1 := alignup pos (DBusObject.getType o).alignment with hpos1
    rw [ih o (by simp) pos1 ((sizePassSeq os (sizePassAfter o pos1).1).2 ++ extra)]
    simp only
    rw [ihos (fun o ho => ih o (by simp [ho])) (sizePassAfter o pos1).1 extra]
    simp only
    have hlen : pos1 + (serAfter e o pos1).length = (sizePassAfter o pos1).1 := by
      have h1 := serAfter_length e o pos1
      have h2 := sizePassAfter_le o pos1
      omega
    rw [hlen]

theorem emitAfter_eq_ser (e : Endianness) :
    ∀ (o : DBusObject) (pos : Nat) (extra : List Nat),
      emitAfter e o pos ((sizePassAfter o pos).2 ++ extra) =
        (serAfter e o pos, (sizePassAfter o pos).1, extra) := by
  intro o
  induction o using DBusObject.objectInduction with
  | hvariant o ih =>
    intro pos extra
    simp only [sizePassAfter, emitAfter, serAfter]
    rw [ih _ extra]
  | hdictEntry k v ihk ihv =>
    intro pos extra
    simp only [sizePassAfter, emitAfter, serAfter, List.append_assoc]
    set pos1 := alignup pos (DBusObject.getType k).alignment with hpos1
    rw [ihk pos1 ((sizePassAfter v (alignup (sizePassAfter k pos1).1
      (DBusObject.getType v).alignment)).2 ++ extra)]
    simp only
    rw [ihv _ extra]
    simp only
    have hlen : pos1 + (serAfter e k pos1).length = (sizePassAfter k pos1).1 := by
      have h1 := serAfter_length e k pos1
      have h2 := sizePassAfter_le k pos1
      omega
    rw [hlen]
  | harray bt es ih =>
    intro pos extra
    simp only [sizePassAfter, emitAfter, serAfter]
    set p2 := alignup (pos + 4) bt.alignment with hp2
    simp only [List.cons_append, List.head?_cons, Option.getD_some, List.tail_cons]
    rw [emitSeq_eq_ser e es (fun o ho => ih o ho) p2 extra]
    simp only
    have hlen : (serSeq e es p2).length = (sizePassSeq es p2).1 - p2 := by
      exact serSeq_length e es (fun o ho pos => serAfter_length e o pos)
        (fun o ho pos => sizePassAfter_le o pos) p2
    rw [hlen]
  | hstruct es ih =>
    intro pos extra
    simp only [sizePassAfter, emitAfter, serAfter]
    exact emitSeq_eq_ser e es (fun o ho => ih o ho) pos extra
  | _ =>
    intro pos extra
    simp [sizePassAfter, emitAfter, serAfter]

/-- The full two-pass pipeline produces exactly the one-pass bytes. -/
theorem dbus_object_to_buffer_eq_ser (e : Endianness) (o : DBusObject) :
    dbus_object_to_buffer e o = serObj e o 0 := by
  unfold dbus_object_to_buffer emitObj serObj sizePass
  have h := emitAfter_eq_ser e o (alignup 0 (DBusObject.getType o).alignment) []
  rw [List.append_nil] at h
  simp only [h]

/-- Length of the one-pass serialization of a whole object. -/
theorem serObj_length (e : Endianness) (o : DBusObject) (pos : Nat) :
    (serObj e o pos).length = (sizePass o pos).1 - pos := by
  unfold serObj sizePass
  set pos1 := alignup pos (DBusObject.getType o).alignment with hpos1
  have h0 := le_alignup pos (DBusObject.getType o).alignment (DBusType.alignment_pos _)
  have h1 := serAfter_length e o pos1
  have h2 := sizePassAfter_le o pos1
  simp only [List.length_append, List.length_replicate]
  omega

/-! ## The parser framework (`parse.hpp` / `parse.cpp`)

The drivers in the source feed every continuation the full
`maxRequiredBytes()` chunk it asks for, and `Parse::parse` adds the chunk
size to the byte counter before invoking the continuation.  Each primitive
continuation therefore becomes a function taking the remaining input and
the current absolute position (= bytes consumed so far) and returning the
rest of the input and the advanced position, or a `ParseError`.  Running
out of input corresponds to the driver check
`required > buflen - pos ⇒ throw ParseError(pos, "... not enough bytes")`. -/

/-- `ParseError`: the byte position and the message. -/
structure ParseError where
  pos : Nat
  msg : String

/-- `ParseZeros` fed its full chunk of `n` bytes: checks that all are zero.
On a non-zero byte at chunk index `i` the source throws
`ParseError(p.getPos() + i, ...)`, where `p.getPos()` has already been
advanced past the chunk, i.e. the stored position is `pos + n + i`. -/
def parseZeros (n : Nat) (input : List Nat) (pos : Nat) :
    Except ParseError (List Nat × Nat) :=
  if input.length < n then .error ⟨pos, "not enough bytes"⟩
  else
    match (input.take n).findIdx? (· ≠ 0) with
    | some i => .error ⟨pos + n + i, "Unexpected non-zero byte."⟩
    | none => .ok (input.drop n, pos + n)

/-- `ParseNChars` fed its full chunk: takes `n` bytes verbatim. -/
def parseNChars (n : Nat) (input : List Nat) (pos : Nat) :
    Except ParseError (List Nat × List Nat × Nat) :=
  if input.length < n then .error ⟨pos, "not enough bytes"⟩
  else .ok (input.take n, input.drop n, pos + n)

/-- `ParseChar`: one byte. -/
def parseChar (input : List Nat) (pos : Nat) :
    Except ParseError (Nat × List Nat × Nat) :=
  match input with
  | [] => .error ⟨pos, "not enough bytes"⟩
  | c :: input => .ok (c, input, pos + 1)

/-- `ParseUint16/ParseUint32/ParseUint64<endianness>`: `w` bytes decoded in
the chosen byte order. -/
def parseNat (e : Endianness) (w : Nat) (input : List Nat) (pos : Nat) :
    Except ParseError (Nat × List Nat × Nat) :=
  if input.length < w then .error ⟨pos, "not enough bytes"⟩
  else .ok (decodeNat e (input.take w), input.drop w, pos + w)

/-! ## The type-signature parser (`parseType`, dbus_parse.cpp)

`parseType` is continuation-passing: `ContArray`, `ContStruct`,
`ContDictKey`, `ContDictValue` and `ContDictCloseBrace` are the
continuations threaded through `DBusType::ParseTypeCont`.  The embedding
defunctionalizes them into `ParseTypeCont`, with `deliverType` playing the
role of invoking `cont->parse(...)` on a completed type and `).`
dispatching to `cont->parseCloseParen(...)`.  The machine consumes one
character per step, exactly like the chain of `ParseChar` continuations. -/

/-- The defunctionalized `DBusType::ParseTypeCont` stack. -/
inductive ParseTypeCont where
  /-- the caller's continuation: a completed type is the result -/
  | top
  /-- `ContArray` -/
  | contArray (k : ParseTypeCont)
  /-- `ContStruct` with the field types parsed so far -/
  | contStruct (fieldTypes : List DBusType) (k : ParseTypeCont)
  /-- `ContDictKey` -/
  | contDictKey (k : ParseTypeCont)
  /-- `ContDictValue` -/
  | contDictValue (keyType : DBusType) (k : ParseTypeCont)

/-- States of the type parser: expecting a type character, or (after a dict
entry's value type) expecting the closing brace (`ContDictCloseBrace`). -/
inductive TypeParserState where
  | expectType (k : ParseTypeCont)
  | expectCloseBrace (keyType valueType : DBusType) (k : ParseTypeCont)

/-- Deliver a completed type to a continuation (`cont->parse(...)`):
either the whole parse is finished, or the machine continues in a new
state. -/
def deliverType : ParseTypeCont → DBusType → DBusType ⊕ TypeParserState
  | .top, t => .inl t
  | .contArray k, t => deliverType k (.array t)
  | .contStruct fs k, t => .inr (.expectType (.contStruct (fs ++ [t]) k))
  | .contDictKey k, t => .inr (.expectType (.contDictValue t k))
  | .contDictValue kt k, t => .inr (.expectCloseBrace kt t k)

/-- `cont->parseCloseParen(...)`: only `ContStruct` accepts a `)`.
`pos` is the position after the `)` character (the state the continuation
receives).  The message of the `top` case is the one in
`DBusObjectSignature::toTypes`; the analogous continuations in the variant
parser and in `toTypes` differ only in their message text. -/
def closeParenType (k : ParseTypeCont) (pos : Nat) :
    Except ParseError (DBusType ⊕ TypeParserState) :=
  match k with
  | .top => .error ⟨pos, "Unexpected close paren while parsing signature."⟩
  | .contArray _ => .error ⟨pos, "Unexpected close paren while parsing array type."⟩
  | .contStruct fs k => .ok (deliverType k (.struct fs))
  | .contDictKey _ =>
    .error ⟨pos, "Unexpected close paren while parsing dict entry type."⟩
  | .contDictValue _ _ =>
    .error ⟨pos, "Unexpected close paren while parsing dict entry type."⟩

/-- The primitive type letter dispatch of `parseType`'s big `switch`. -/
def primTypeOfChar (c : Nat) : Option DBusType :=
  if c = 121 then some .char          -- y
  else if c = 98 then some .boolean   -- b
  else if c = 113 then some .uint16   -- q
  else if c = 110 then some .int16    -- n
  else if c = 117 then some .uint32   -- u
  else if c = 105 then some .int32    -- i
  else if c = 116 then some .uint64   -- t
  else if c = 120 then some .int64    -- x
  else if c = 100 then some .double   -- d
  else if c = 104 then some .unixFD   -- h
  else if c = 115 then some .string   -- s
  else if c = 111 then some .path     -- o
  else if c = 103 then some .signature -- g
  else if c = 118 then some .variant  -- v
  else none

/-- Run the type parser machine: one character consumed per step.  Returns
the completed type, the remaining input and the advanced position. -/
def runParseType : List Nat → Nat → TypeParserState →
    Except ParseError (DBusType × List Nat × Nat)
  | [], pos, _ => .error ⟨pos, "not enough bytes"⟩
  | c :: input, pos, .expectCloseBrace kt vt k =>
    -- ContDictCloseBrace: the next character must be a closing brace (125).
    if c = 125 then
      match deliverType k (.dictEntry kt vt) with
      | .inl t => .ok (t, input, pos + 1)
      | .inr st => runParseType input (pos + 1) st
    else .error ⟨pos + 1, "Expected a closing brace character."⟩
  | c :: input, pos, .expectType k =>
    match primTypeOfChar c with
    | some t =>
      match deliverType k t with
      | .inl t => .ok (t, input, pos + 1)
      | .inr st => runParseType input (pos + 1) st
    | none =>
      if c = 97 then -- a
        runParseType input (pos + 1) (.expectType (.contArray k))
      else if c = 40 then -- (
        runParseType input (pos + 1) (.expectType (.contStruct [] k))
      else if c = 123 then -- opening brace
        runParseType input (pos + 1) (.expectType (.contDictKey k))
      else if c = 41 then -- )
        match closeParenType k (pos + 1) with
        | .error err => .error err
        | .ok (.inl t) => .ok (t, input, pos + 1)
        | .ok (.inr st) => runParseType input (pos + 1) st
      else
        .error ⟨pos + 1, "Invalid type character: " ++ Nat.repr c⟩

/-- `DBusObjectSignature::toTypes`, inner loop: parse types one after the
other until the end position is reached (`TypeCont` in `toTypes`).  The
fuel only bounds the number of types; `toTypes` passes enough for any
input. -/
def toTypesAux (fuel : Nat) (input : List Nat) (pos endpos : Nat)
    (acc : List DBusType) : Except ParseError (List DBusType) :=
  match fuel with
  | 0 => .error ⟨pos, "out of fuel"⟩
  | fuel + 1 =>
    match runParseType input pos (.expectType .top) with
    | .error err => .error err
    | .ok (t, input, pos) =>
      if pos < endpos then toTypesAux fuel input pos endpos (acc ++ [t])
      else .ok (acc ++ [t])

/-- `DBusObjectSignature::toTypes`: parse the whole signature string into a
sequence of types. -/
def DBusObjectSignature.toTypes (s : List Nat) : Except ParseError (List DBusType) :=
  toTypesAux (s.length + 1) s 0 s.length []

/-! ## The type-directed object parser (`mkObjectParser`, dbus_parse.cpp)

`DBusType::mkObjectParser` consumes the alignment padding
(`parse_alignment`) and then dispatches on the type
(`mkObjectParserImpl`).  The continuation chains become direct-style
sequencing.  `fuel` decreases at every recursive step so that the
definition is structural; the source has no such bound and can loop
forever on an array whose declared payload length is positive while the
element type occupies zero bytes. -/

mutual

/-- `DBusType::mkObjectParser<endianness>` composed with the driver:
parse the alignment padding, then one value of type `t`. -/
def parseObject (fuel : Nat) (t : DBusType) (e : Endianness) (input : List Nat)
    (pos : Nat) : Except ParseError (DBusObject × List Nat × Nat) :=
  match fuel with
  | 0 => .error ⟨pos, "out of fuel"⟩
  | fuel + 1 =>
    match parseZeros (parsePad t.alignment pos) input pos with
    | .error err => .error err
    | .ok (input, pos) =>
      -- mkObjectParserImpl, one case per DBusType subclass
      match t with
      | .char =>
        match parseChar input pos with
        | .error err => .error err
        | .ok (c, input, pos) => .ok (.char c, input, pos)
      | .boolean =>
        match parseNat e 4 input pos with
        | .error err => .error err
        | .ok (b, input, pos) =>
          -- The value must be either 0 or 1 (DBusTypeBoolean_mkObjectParserImpl).
          if 1 < b then .error ⟨pos, "Boolean value that is not 0 or 1."⟩
          else .ok (.boolean (b != 0), input, pos)
      | .uint16 =>
        match parseNat e 2 input pos with
        | .error err => .error err
        | .ok (x, input, pos) => .ok (.uint16 x, input, pos)
      | .int16 =>
        match parseNat e 2 input pos with
        | .error err => .error err
        | .ok (x, input, pos) => .ok (.int16 x, input, pos)
      | .uint32 =>
        match parseNat e 4 input pos with
        | .error err => .error err
        | .ok (x, input, pos) => .ok (.uint32 x, input, pos)
      | .int32 =>
        match parseNat e 4 input pos with
        | .error err => .error err
        | .ok (x, input, pos) => .ok (.int32 x, input, pos)
      | .uint64 =>
        match parseNat e 8 input pos with
        | .error err => .error err
        | .ok (x, input, pos) => .ok (.uint64 x, input, pos)
      | .int64 =>
        match parseNat e 8 input pos with
        | .error err => .error err
        | .ok (x, input, pos) => .ok (.int64 x, input, pos)
      | .double =>
        match parseNat e 8 input pos with
        | .error err => .error err
        | .ok (x, input, pos) => .ok (.double x, input, pos)
      | .unixFD =>
        match parseNat e 4 input pos with
        | .error err => .error err
        | .ok (x, input, pos) => .ok (.unixFD x, input, pos)
      | .string =>
        -- parseString32: a uint32 length, then parseString (the payload
        -- bytes and one zero byte).
        match parseNat e 4 input pos with
        | .error err => .error err
        | .ok (len, input, pos) =>
          match parseNChars len input pos with
          | .error err => .error err
          | .ok (s, input, pos) =>
            match parseZeros 1 input pos with
            | .error err => .error err
            | .ok (input, pos) => .ok (.string s, input, pos)
      | .path =>
        match parseNat e 4 input pos with
        | .error err => .error err
        | .ok (len, input, pos) =>
          match parseNChars len input pos with
          | .error err => .error err
          | .ok (s, input, pos) =>
            match parseZeros 1 input pos with
            | .error err => .error err
            | .ok (input, pos) => .ok (.path s, input, pos)
      | .signature =>
        -- parseString8: a one-byte length (uint8_t cast), then parseString.
        match parseChar input pos with
        | .error err => .error err
        | .ok (c, input, pos) =>
          match parseNChars (c % 2 ^ 8) input pos with
          | .error err => .error err
          | .ok (s, input, pos) =>
            match parseZeros 1 input pos with
            | .error err => .error err
            | .ok (input, pos) => .ok (.signature s, input, pos)
      | .variant =>
        -- DBusTypeVariant_mkObjectParserImpl: the length byte, one type
        -- parsed from the signature, the length comparison, the NUL, then
        -- one value of the parsed type.
        match parseChar input pos with
        | .error err => .error err
        | .ok (c, input, pos) =>
          let len := c % 2 ^ 8
          if 2 ^ 64 ≤ pos + len then
            .error ⟨pos, "Signature length integer overflow."⟩
          else
            match runParseType input pos (.expectType .top) with
            | .error err => .error err
            | .ok (t1, input, pos1) =>
              if pos1 = pos + len then
                match parseZeros 1 input pos1 with
                | .error err => .error err
                | .ok (input, pos2) =>
                  match parseObject fuel t1 e input pos2 with
                  | .error err => .error err
                  | .ok (obj, input, pos3) => .ok (.variant obj, input, pos3)
              else .error ⟨pos1, "Incorrect variant signature length."⟩
      | .dictEntry kt vt =>
        -- DBusTypeDictEntry_mkObjectParserImpl: the key then the value.
        match parseObject fuel kt e input pos with
        | .error err => .error err
        | .ok (k, input, pos) =>
          match parseObject fuel vt e input pos with
          | .error err => .error err
          | .ok (v, input, pos) => .ok (.dictEntry k v, input, pos)
      | .array bt =>
        -- DBusTypeArray_mkObjectParserImpl: the uint32 payload length, the
        -- padding to the element alignment, the overflow check, then the
        -- element loop.
        match parseNat e 4 input pos with
        | .error err => .error err
        | .ok (len, input, pos) =>
          match parseZeros (parsePad bt.alignment pos) input pos with
          | .error err => .error err
          | .ok (input, pos) =>
            if 2 ^ 64 ≤ pos + len then
              .error ⟨pos, "Array length integer overflow."⟩
            else parseArrayElems fuel bt e (pos + len) [] input pos
      | .struct fts =>
        -- parseStruct: each field in order, then DBusObjectStruct::mk.
        match parseObjectSeq fuel fts e [] input pos with
        | .error err => .error err
        | .ok (objs, input, pos) => .ok (.struct objs, input, pos)
termination_by structural fuel

/-- `parseArray`: elements of type `bt` until exactly `endpos`;
overshoot is an error. -/
def parseArrayElems (fuel : Nat) (bt : DBusType) (e : Endianness) (endpos : Nat)
    (acc : List DBusObject) (input : List Nat) (pos : Nat) :
    Except ParseError (DBusObject × List Nat × Nat) :=
  match fuel with
  | 0 => .error ⟨pos, "out of fuel"⟩
  | fuel + 1 =>
    if pos < endpos then
      match parseObject fuel bt e input pos with
      | .error err => .error err
      | .ok (obj, input, pos) =>
        parseArrayElems fuel bt e endpos (acc ++ [obj]) input pos
    else if pos = endpos then .ok (DBusObjectArray.mk bt acc, input, pos)
    else .error ⟨pos, "Incorrect array length."⟩
termination_by structural fuel

/-- `parseObjects`: one value per type, in order. -/
def parseObjectSeq (fuel : Nat) (ts : List DBusType) (e : Endianness)
    (acc : List DBusObject) (input : List Nat) (pos : Nat) :
    Except ParseError (List DBusObject × List Nat × Nat) :=
  match ts with
  | [] => .ok (acc, input, pos)
  | t :: ts =>
    match fuel with
    | 0 => .error ⟨pos, "out of fuel"⟩
    | fuel + 1 =>
      match parseObject fuel t e input pos with
      | .error err => .error err
      | .ok (obj, input, pos) => parseObjectSeq fuel ts e (acc ++ [obj]) input pos
termination_by structural fuel

end

/-! Fuel that suffices to parse back a serialized value. -/

mutual

def objFuel : DBusObject → Nat
  | .variant o => 1 + objFuel o
  | .dictEntry k v => 1 + objFuel k + objFuel v
  | .array _ es => 1 + arrFuel es
  | .struct es => 1 + seqFuel es
  | _ => 1

def arrFuel : List DBusObject → Nat
  | [] => 1
  | o :: os => 1 + objFuel o + arrFuel os

def seqFuel : List DBusObject → Nat
  | [] => 0
  | o :: os => 1 + objFuel o + seqFuel os

end

/-! ## Message framing (`DBusMessage`, dbus.cpp / dbus_parse.cpp) -/

/-- The type of the header of a DBus message (`headerType` in dbus.cpp):
`(yyyyuua(yv))`. -/
def headerType : DBusType :=
  .struct [.char, .char, .char, .char, .uint32, .uint32,
    .array (.struct [.char, .variant])]

/-- A parsed message: the header object and the body values. -/
structure DBusMessage where
  header : DBusObject
  body : List DBusObject

/-- Failures of `DBusMessage::parse`: a wire `ParseError`, or one of the
`ObjectCastError`s thrown by the header accessors. -/
inductive MsgError where
  | parseErr (err : ParseError)
  | castErr (name : String)

/-- `DBusMessage::getHeader_bodySize`: header element 4 as a `Uint32`. -/
def getHeader_bodySize (header : DBusObject) : Except MsgError Nat :=
  match header with
  | .struct es =>
    match (es[4]? : Option DBusObject) with
    | some (.uint32 x) => .ok x
    | _ => .error (.castErr "Uint32")
  | _ => .error (.castErr "Struct")

/-- The loop of `DBusMessage::getHeader_lookupField`: find the first header
field whose field code (element 0, a `Char`) equals `name` and return its
variant (element 1). -/
def lookupFieldAux (name : Nat) : List DBusObject → Except MsgError DBusObject
  | [] => .error (.castErr "DBusMessage::getHeader_lookupField")
  | f :: fs =>
    match f with
    | .struct (e0 :: e1 :: _) =>
      match e0 with
      | .char c =>
        if c = name then
          match e1 with
          | .variant _ => .ok e1
          | _ => .error (.castErr "Variant")
        else lookupFieldAux name fs
      | _ => .error (.castErr "Char")
    | _ => .error (.castErr "Struct")

/-- `DBusMessage::getHeader_lookupField`: search the header fields array
(header element 6). -/
def getHeader_lookupField (header : DBusObject) (name : Nat) :
    Except MsgError DBusObject :=
  match header with
  | .struct es =>
    match (es[6]? : Option DBusObject) with
    | some (.array _ fields) => lookupFieldAux name fields
    | _ => .error (.castErr "Array")
  | _ => .error (.castErr "Struct")

/-- `getBodyTypesFromHeader` (in `DBusMessage::parse`): an empty list when
`body_length` is zero, otherwise the types parsed from the header's
Signature field (code `MSGHDR_SIGNATURE` = 8). -/
def getBodyTypesFromHeader (header : DBusObject) : Except MsgError (List DBusType) :=
  match getHeader_bodySize header with
  | .error err => .error err
  | .ok bodySize =>
    if bodySize = 0 then .ok []
    else
      match getHeader_lookupField header 8 with
      | .error err => .error err
      | .ok v =>
        match v with
        | .variant (.signature s) =>
          match DBusObjectSignature.toTypes s with
          | .error err => .error (.parseErr err)
          | .ok ts => .ok ts
        | _ => .error (.castErr "Signature")

/-- `DBusMessage::parse<endianness>` composed with its driver: the header
struct from position 0, zero padding to an 8-byte boundary, then one value
per body element type.  Parsing stops there (`BodyCont` returns
`ParseStop`); remaining input and the final position are returned. -/
def DBusMessage.parse (fuel : Nat) (e : Endianness) (input : List Nat) :
    Except MsgError (DBusMessage × List Nat × Nat) :=
  match parseObject fuel headerType e input 0 with
  | .error err => .error (.parseErr err)
  | .ok (header, input, pos) =>
    -- The body is 8-byte aligned (parse_alignment with DBusTypeUint64).
    match parseZeros (parsePad 8 pos) input pos with
    | .error err => .error (.parseErr err)
    | .ok (input, pos) =>
      match getBodyTypesFromHeader header with
      | .error err => .error err
      | .ok bodyTypes =>
        match parseObjectSeq fuel bodyTypes e [] input pos with
        | .error err => .error (.parseErr err)
        | .ok (objs, input, pos) => .ok (⟨header, objs⟩, input, pos)

/-! ## The signature of a type parses back to that type -/

/-- What happens after the machine has recognised one complete type `t` and
hands it to the continuation `k`. -/
def afterType (k : ParseTypeCont) (t : DBusType) (input : List Nat) (pos : Nat) :
    Except ParseError (DBusType × List Nat × Nat) :=
  match deliverType k t with
  | .inl t => .ok (t, input, pos)
  | .inr st => runParseType input pos st

theorem runParseType_listToString (ts : List DBusType)
    (ih : ∀ t ∈ ts, ∀ k input pos,
      runParseType (t.toString ++ input) pos (.expectType k) =
        afterType k t input (pos + t.toString.length)) :
    ∀ fs k input pos,
      runParseType (DBusType.listToString ts ++ 41 :: input) pos
          (.expectType (.contStruct fs k)) =
        afterType k (.struct (fs ++ ts)) input
          (pos + (DBusType.listToString ts).length + 1) := by
  induction ts with
  | nil =>
    intro fs k input pos
    simp only [DBusType.listToString, List.nil_append, List.length_nil, Nat.add_zero,
      List.append_nil]
    rw [runParseType]
    simp only [primTypeOfChar, Nat.reduceEqDiff, reduceIte, closeParenType]
    cases h : deliverType k (.struct fs) <;> simp [h, afterType]
  | cons t ts ihts =>
    intro fs k input pos
    simp only [DBusType.listToString, List.append_assoc, List.cons_append]
    rw [ih t (by simp) (.contStruct fs k) (DBusType.listToString ts ++ 41 :: input) pos]
    simp only [afterType, deliverType]
    rw [ihts (fun t ht => ih t (by simp [ht])) (fs ++ [t]) k input
      (pos + t.toString.length)]
    simp only [List.append_assoc, List.singleton_append, List.length_append]
    congr 1
    omega

theorem runParseType_toString (t : DBusType) :
    ∀ (k : ParseTypeCont) (input : List Nat) (pos : Nat),
      runParseType (t.toString ++ input) pos (.expectType k) =
        afterType k t input (pos + t.toString.length) := by
  induction t using DBusType.typeInduction with
  | hdictEntry kt vt ihk ihv =>
    intro k input pos
    simp only [DBusType.toString, List.cons_append, List.append_assoc,
      List.singleton_append, List.nil_append]
    rw [runParseType]
    simp only [primTypeOfChar, Nat.reduceEqDiff, reduceIte]
    rw [ihk (.contDictKey k) (vt.toString ++ 125 :: input) (pos + 1)]
    simp only [afterType, deliverType]
    rw [ihv (.contDictValue kt k) (125 :: input) (pos + 1 + kt.toString.length)]
    simp only [afterType, deliverType]
    rw [runParseType]
    simp only [Nat.reduceEqDiff, reduceIte, List.length_cons, List.length_append,
      List.length_nil]
    have hp : pos + 1 + kt.toString.length + vt.toString.length + 1 =
        pos + (kt.toString.length + (vt.toString.length + 1) + 1) := by omega
    rw [hp]
  | harray bt ihb =>
    intro k input pos
    simp only [DBusType.toString, List.cons_append]
    rw [runParseType]
    simp only [primTypeOfChar, Nat.reduceEqDiff, reduceIte]
    rw [ihb (.contArray k) input (pos + 1)]
    simp only [afterType, deliverType, List.length_cons]
    have hp : pos + 1 + bt.toString.length = pos + (bt.toString.length + 1) := by omega
    rw [hp]
  | hstruct fs ihfs =>
    intro k input pos
    simp only [DBusType.toString, List.cons_append, List.append_assoc,
      List.singleton_append, List.nil_append]
    rw [runParseType]
    simp only [primTypeOfChar, Nat.reduceEqDiff, reduceIte]
    rw [runParseType_listToString fs (fun t ht => ihfs t ht) [] k input (pos + 1)]
    simp only [List.nil_append, List.length_cons, List.length_append, List.length_nil]
    have hp : pos + 1 + (DBusType.listToString fs).length + 1 =
        pos + ((DBusType.listToString fs).length + 1 + 1) := by omega
    rw [hp]
  | _ =>
    intro k input pos
    simp only [DBusType.toString, List.cons_append, List.nil_append]
    rw [runParseType]
    simp only [primTypeOfChar, Nat.reduceEqDiff, reduceIte, afterType,
      List.length_cons, List.length_nil]

theorem runParseType_toString_top (t : DBusType) (input : List Nat) (pos : Nat) :
    runParseType (t.toString ++ input) pos (.expectType .top) =
      .ok (t, input, pos + t.toString.length) := by
  rw [runParseType_toString t .top input pos]
  simp [afterType, deliverType]

theorem toString_length_pos (t : DBusType) : 0 < t.toString.length := by
  cases t <;> simp [DBusType.toString]

/-! ## Helper lemmas for the round-trip proof -/

theorem cloneType_eq : ∀ t : DBusType, cloneType t = t := by
  have list_eq : ∀ ts : List DBusType, (∀ t ∈ ts, cloneType t = t) →
      cloneType.cloneTypeList ts = ts := by
    intro ts ih
    induction ts with
    | nil => rfl
    | cons t ts ihts =>
      simp only [cloneType.cloneTypeList, ih t (by simp),
        ihts (fun t ht => ih t (by simp [ht]))]
  intro t
  induction t using DBusType.typeInduction with
  | hdictEntry k v ihk ihv => simp [cloneType, ihk, ihv]
  | harray t iht => simp [cloneType, iht]
  | hstruct fs ihfs => simp [cloneType, list_eq fs ihfs]
  | _ => rfl

/-- With homogeneous elements, `DBusObjectArray::mk` stores exactly the
requested base type. -/
theorem DBusObjectArray.mk_eq (bt : DBusType) (es : List DBusObject)
    (h : DBusObject.typesAre bt es) :
    DBusObjectArray.mk bt es = .array bt es := by
  cases es with
  | nil => simp [DBusObjectArray.mk, cloneType_eq]
  | cons o os =>
    simp only [DBusObjectArray.mk]
    simp only [DBusObject.typesAre] at h
    rw [h.1]

mutual

/-- Types all of whose values occupy zero bytes on the wire: structs of
zero-sized fields and dict entries of zero-sized types. -/
def zeroSized : DBusType → Bool
  | .dictEntry k v => zeroSized k && zeroSized v
  | .struct fs => zeroSizedList fs
  | _ => false

def zeroSizedList : List DBusType → Bool
  | [] => true
  | t :: ts => zeroSized t && zeroSizedList ts

end

theorem zeroSized_alignment (t : DBusType) (h : zeroSized t = true) :
    t.alignment = 8 := by
  cases t <;> simp [zeroSized] at h <;> rfl

theorem zeroSized_ser (e : Endianness) :
    ∀ (v : DBusObject) (pos : Nat), zeroSized (DBusObject.getType v) = true →
      8 ∣ pos → serAfter e v pos = [] ∧ sizePassAfter v pos = (pos, []) := by
  have seq_ser : ∀ (os : List DBusObject),
      (∀ o ∈ os, ∀ pos, zeroSized (DBusObject.getType o) = true → 8 ∣ pos →
        serAfter e o pos = [] ∧ sizePassAfter o pos = (pos, [])) →
      ∀ pos, zeroSizedList (DBusObject.getTypes os) = true → 8 ∣ pos →
        serSeq e os pos = [] ∧ sizePassSeq os pos = (pos, []) := by
    intro os ih
    induction os with
    | nil => intro pos _ _; exact ⟨rfl, rfl⟩
    | cons o os ihos =>
      intro pos hz hdvd
      simp only [DBusObject.getTypes, zeroSizedList, Bool.and_eq_true] at hz
      have halign : (DBusObject.getType o).alignment = 8 := zeroSized_alignment _ hz.1
      have hpos1 : alignup pos (DBusObject.getType o).alignment = pos := by
        rw [halign]; exact alignup_self pos 8 hdvd
      have h1 := ih o (by simp) pos hz.1 hdvd
      have h2 := ihos (fun o ho => ih o (by simp [ho])) pos hz.2 hdvd
      constructor
      · simp only [serSeq, hpos1, h1.1, h2.1, Nat.sub_self, List.replicate_zero,
          List.nil_append, List.length_nil, Nat.add_zero, List.append_nil]
      · simp only [sizePassSeq, hpos1, h1.2, h2.2, List.nil_append]
  intro v
  induction v using DBusObject.objectInduction with
  | hdictEntry k v ihk ihv =>
    intro pos hz hdvd
    simp only [DBusObject.getType, zeroSized, Bool.and_eq_true] at hz
    have hak : (DBusObject.getType k).alignment = 8 := zeroSized_alignment _ hz.1
    have hav : (DBusObject.getType v).alignment = 8 := zeroSized_alignment _ hz.2
    have hposk : alignup pos (DBusObject.getType k).alignment = pos := by
      rw [hak]; exact alignup_self pos 8 hdvd
    have h1 := ihk pos hz.1 hdvd
    constructor
    · simp only [serAfter, hposk, h1.1, List.length_nil, Nat.add_zero, hav]
      rw [alignup_self pos 8 hdvd]
      simp [(ihv pos hz.2 hdvd).1]
    · simp only [sizePassAfter, hposk, h1.2]
      simp only [hav]
      rw [alignup_self pos 8 hdvd]
      exact (ihv pos hz.2 hdvd).2
  | hstruct es ihes =>
    intro pos hz hdvd
    simp only [DBusObject.getType, zeroSized] at hz
    have h := seq_ser es (fun o ho => ihes o ho) pos hz hdvd
    exact ⟨h.1, h.2⟩
  | _ =>
    intro pos hz _
    simp [DBusObject.getType, zeroSized] at hz

/-! Primitive parser lemmas for well-formed wire data. -/

theorem parseZeros_exact (n : Nat) (rest : List Nat) (pos : Nat) :
    parseZeros n (List.replicate n 0 ++ rest) pos = .ok (rest, pos + n) := by
  unfold parseZeros
  rw [if_neg (by intro h; simp at h)]
  rw [List.take_left' (by simp), List.drop_left' (by simp)]
  have hfind : (List.replicate n 0).findIdx? (fun b => decide (b ≠ 0)) = none := by
    rw [List.findIdx?_eq_none_iff]
    intro x hx
    simp [List.eq_of_mem_replicate hx]
  rw [hfind]

theorem parseNChars_exact (s rest : List Nat) (pos : Nat) :
    parseNChars s.length (s ++ rest) pos = .ok (s, rest, pos + s.length) := by
  unfold parseNChars
  rw [if_neg (by intro h; simp at h)]
  rw [List.take_left' rfl, List.drop_left' rfl]

theorem parseNat_exact (e : Endianness) (w x : Nat) (rest : List Nat) (pos : Nat) :
    parseNat e w (natBytes e w x ++ rest) pos =
      .ok (x % 2 ^ (8 * w), rest, pos + w) := by
  unfold parseNat
  rw [if_neg (by intro h; simp at h)]
  rw [List.take_left' (by simp), List.drop_left' (by simp), decodeNat_natBytes]

theorem parseChar_cons (c : Nat) (rest : List Nat) (pos : Nat) :
    parseChar (c :: rest) pos = .ok (c, rest, pos + 1) := rfl

theorem parsePad_one (pos : Nat) : parsePad 1 pos = 0 := by
  unfold parsePad
  omega

theorem pos_add_parsePad (a pos : Nat) (ha : 0 < a) :
    pos + parsePad a pos = alignup pos a := by
  rw [parsePad_eq_padLen a pos ha]
  unfold padLen
  have := le_alignup pos a ha
  omega

theorem parseZeros_zero (input : List Nat) (pos : Nat) :
    parseZeros 0 input pos = .ok (input, pos) := by
  simp [parseZeros]

theorem alignup_one (pos : Nat) : alignup pos 1 = pos :=
  alignup_self pos 1 (one_dvd _)

theorem sizePass_le (v : DBusObject) (pos : Nat) : pos ≤ (sizePass v pos).1 := by
  unfold sizePass
  have h1 := le_alignup pos (DBusObject.getType v).alignment (DBusType.alignment_pos _)
  have h2 := sizePassAfter_le v (alignup pos (DBusObject.getType v).alignment)
  omega

theorem serObj_nil_iff (e : Endianness) (v : DBusObject) (pos : Nat) :
    (serObj e v pos).length = (sizePass v pos).1 - pos := serObj_length e v pos

/-- Decompose the serialization of a non-empty sequence. -/
theorem serSeq_cons (e : Endianness) (o : DBusObject) (os : List DBusObject)
    (pos : Nat) :
    serSeq e (o :: os) pos = serObj e o pos ++ serSeq e os (sizePass o pos).1 := by
  have hpos : alignup pos (DBusObject.getType o).alignment +
      (serAfter e o (alignup pos (DBusObject.getType o).alignment)).length =
      (sizePass o pos).1 := by
    unfold sizePass
    have h1 := serAfter_length e o (alignup pos (DBusObject.getType o).alignment)
    have h2 := sizePassAfter_le o (alignup pos (DBusObject.getType o).alignment)
    omega
  simp only [serSeq, serObj, List.append_assoc, hpos]

/-- Decompose the serialization of a dict entry. -/
theorem serAfter_dict (e : Endianness) (k v : DBusObject) (pos : Nat) :
    serAfter e (.dictEntry k v) pos = serObj e k pos ++ serObj e v (sizePass k pos).1 := by
  have hpos : alignup pos (DBusObject.getType k).alignment +
      (serAfter e k (alignup pos (DBusObject.getType k).alignment)).length =
      (sizePass k pos).1 := by
    unfold sizePass
    have h1 := serAfter_length e k (alignup pos (DBusObject.getType k).alignment)
    have h2 := sizePassAfter_le k (alignup pos (DBusObject.getType k).alignment)
    omega
  simp only [serAfter, serObj, List.append_assoc, hpos]

/-- Two objects of the same type with the same after-padding bytes have the
same padded bytes and the same end position. -/
theorem serObj_congr (e : Endianness) (w v : DBusObject) (pos : Nat)
    (ht : DBusObject.getType w = DBusObject.getType v)
    (hb : serAfter e w (alignup pos (DBusObject.getType v).alignment) =
      serAfter e v (alignup pos (DBusObject.getType v).alignment)) :
    serObj e w pos = serObj e v pos ∧ (sizePass w pos).1 = (sizePass v pos).1 := by
  have h1 : serObj e w pos = serObj e v pos := by
    simp only [serObj, ht, hb]
  refine ⟨h1, ?_⟩
  have h2 := serObj_length e w pos
  have h3 := serObj_length e v pos
  have h4 := sizePass_le w pos
  have h5 := sizePass_le v pos
  rw [h1] at h2
  omega

/-- A value whose type is not zero-sized occupies at least one byte after
its padding. -/
theorem sizePassAfter_lt_of_not_zeroSized :
    ∀ (v : DBusObject) (pos : Nat), zeroSized (DBusObject.getType v) = false →
      pos < (sizePassAfter v pos).1 := by
  have seq_lt : ∀ (os : List DBusObject),
      (∀ o ∈ os, ∀ pos, zeroSized (DBusObject.getType o) = false →
        pos < (sizePassAfter o pos).1) →
      ∀ pos, zeroSizedList (DBusObject.getTypes os) = false →
        pos < (sizePassSeq os pos).1 := by
    intro os ih
    induction os with
    | nil => intro pos h; simp [DBusObject.getTypes, zeroSizedList] at h
    | cons o os ihos =>
      intro pos h
      simp only [DBusObject.getTypes, zeroSizedList, Bool.and_eq_false_iff] at h
      simp only [sizePassSeq]
      have hle0 := le_alignup pos (DBusObject.getType o).alignment
        (DBusType.alignment_pos _)
      have hle1 := sizePassAfter_le o (alignup pos (DBusObject.getType o).alignment)
      have hle2 := sizePassSeq_le os (fun o _ pos => sizePassAfter_le o pos)
        (sizePassAfter o (alignup pos (DBusObject.getType o).alignment)).1
      rcases h with h | h
      · have := ih o (by simp) (alignup pos (DBusObject.getType o).alignment) h
        omega
      · have := ihos (fun o ho => ih o (by simp [ho])) (sizePassAfter o
          (alignup pos (DBusObject.getType o).alignment)).1 h
        omega
  intro v
  induction v using DBusObject.objectInduction with
  | hvariant o ih =>
    intro pos _
    simp only [sizePassAfter]
    have h1 := le_alignup (pos + 1 + ((DBusObject.getType o).toString.length % 2 ^ 8 + 1))
      (DBusObject.getType o).alignment (DBusType.alignment_pos _)
    have h2 := sizePassAfter_le o (alignup
      (pos + 1 + ((DBusObject.getType o).toString.length % 2 ^ 8 + 1))
      (DBusObject.getType o).alignment)
    omega
  | hdictEntry k v ihk ihv =>
    intro pos h
    simp only [DBusObject.getType, zeroSized, Bool.and_eq_false_iff] at h
    simp only [sizePassAfter]
    have hle0 := le_alignup pos (DBusObject.getType k).alignment
      (DBusType.alignment_pos _)
    have hle1 := sizePassAfter_le k (alignup pos (DBusObject.getType k).alignment)
    have hle2 := le_alignup (sizePassAfter k (alignup pos
      (DBusObject.getType k).alignment)).1 (DBusObject.getType v).alignment
      (DBusType.alignment_pos _)
    have hle3 := sizePassAfter_le v (alignup (sizePassAfter k (alignup pos
      (DBusObject.getType k).alignment)).1 (DBusObject.getType v).alignment)
    rcases h with h | h
    · have := ihk (alignup pos (DBusObject.getType k).alignment) h
      omega
    · have := ihv (alignup (sizePassAfter k (alignup pos
        (DBusObject.getType k).alignment)).1 (DBusObject.getType v).alignment) h
      omega
  | harray bt es ih =>
    intro pos _
    simp only [sizePassAfter]
    have h1 := le_alignup (pos + 4) bt.alignment (DBusType.alignment_pos _)
    have h2 := sizePassSeq_le es (fun o _ pos => sizePassAfter_le o pos)
      (alignup (pos + 4) bt.alignment)
    omega
  | hstruct es ihes =>
    intro pos h
    simp only [DBusObject.getType, zeroSized] at h
    simp only [sizePassAfter]
    exact seq_lt es (fun o ho => ihes o ho) pos h
  | _ =>
    intro pos _
    simp only [sizePassAfter]
    omega

/-- Zero-sized sequences: all elements serialize to nothing. -/
theorem zeroSized_serSeq (e : Endianness) (os : List DBusObject) :
    ∀ pos, zeroSizedList (DBusObject.getTypes os) = true → 8 ∣ pos →
      serSeq e os pos = [] ∧ sizePassSeq os pos = (pos, []) := by
  induction os with
  | nil => intro pos _ _; exact ⟨rfl, rfl⟩
  | cons o os ihos =>
    intro pos hz hdvd
    simp only [DBusObject.getTypes, zeroSizedList, Bool.and_eq_true] at hz
    have halign : (DBusObject.getType o).alignment = 8 := zeroSized_alignment _ hz.1
    have hpos1 : alignup pos (DBusObject.getType o).alignment = pos := by
      rw [halign]; exact alignup_self pos 8 hdvd
    have h1 := zeroSized_ser e o pos hz.1 hdvd
    have h2 := ihos pos hz.2 hdvd
    constructor
    · simp only [serSeq, hpos1, h1.1, h2.1, Nat.sub_self, List.replicate_zero,
        List.nil_append, List.length_nil, Nat.add_zero, List.append_nil]
    · simp only [sizePassSeq, hpos1, h1.2, h2.2, List.nil_append]

theorem typesAre_zeroSizedList (bt : DBusType) (os : List DBusObject)
    (ht : DBusObject.typesAre bt os) (hz : zeroSized bt = true) :
    zeroSizedList (DBusObject.getTypes os) = true := by
  induction os with
  | nil => rfl
  | cons o os ihos =>
    simp only [DBusObject.typesAre] at ht
    simp only [DBusObject.getTypes, zeroSizedList, Bool.and_eq_true]
    exact ⟨ht.1 ▸ hz, ihos ht.2⟩

/-! ## Round trip: parsing a serialized value

The invariant carried through the induction: parsing the serialized bytes
of a well-formed `v` (whose total serialized size fits in a `uint32_t`)
succeeds, consumes exactly those bytes, and produces a value of the same
type whose serialization is byte-identical to that of `v`. -/

def RoundTrip (e : Endianness) (v : DBusObject) : Prop :=
  ∀ (pos : Nat) (input : List Nat) (fuel : Nat),
    DBusObject.wf v → (sizePass v pos).1 < 2 ^ 32 → objFuel v ≤ fuel →
    ∃ w, parseObject fuel (DBusObject.getType v) e (serObj e v pos ++ input) pos =
        .ok (w, input, (sizePass v pos).1)
      ∧ DBusObject.getType w = DBusObject.getType v
      ∧ serAfter e w (alignup pos (DBusObject.getType v).alignment) =
          serAfter e v (alignup pos (DBusObject.getType v).alignment)

theorem one_le_objFuel (v : DBusObject) : 1 ≤ objFuel v := by
  cases v <;> simp only [objFuel] <;> omega

theorem parseZeros_pad (a : Nat) (ha : 0 < a) (rest : List Nat) (pos : Nat) :
    parseZeros (parsePad a pos) (List.replicate (alignup pos a - pos) 0 ++ rest) pos =
      .ok (rest, alignup pos a) := by
  have h := le_alignup pos a ha
  have h2 : pos + (alignup pos a - pos) = alignup pos a := by omega
  rw [parsePad_eq_padLen a pos ha]
  unfold padLen
  rw [parseZeros_exact, h2]

theorem parseSeq_roundTrip (e : Endianness) (os : List DBusObject) :
    (∀ o ∈ os, RoundTrip e o) →
    ∀ (pos : Nat) (input : List Nat) (acc : List DBusObject) (fuel : Nat),
      DBusObject.wfList os → (sizePassSeq os pos).1 < 2 ^ 32 → seqFuel os ≤ fuel →
      ∃ ws, parseObjectSeq fuel (DBusObject.getTypes os) e acc
          (serSeq e os pos ++ input) pos =
          .ok (acc ++ ws, input, (sizePassSeq os pos).1)
        ∧ DBusObject.getTypes ws = DBusObject.getTypes os
        ∧ serSeq e ws pos = serSeq e os pos := by
  induction os with
  | nil =>
    intro _ pos input acc fuel _ _ _
    refine ⟨[], ?_, rfl, rfl⟩
    simp [parseObjectSeq, serSeq, DBusObject.getTypes, sizePassSeq]
  | cons o os ihos =>
    intro ih pos input acc fuel hwf hsz hfuel
    simp only [DBusObject.wfList] at hwf
    obtain ⟨f, rfl⟩ : ∃ f, fuel = f + 1 :=
      ⟨fuel - 1, by simp only [seqFuel] at hfuel; omega⟩
    have hmid_le : (sizePass o pos).1 ≤ (sizePassSeq (o :: os) pos).1 := by
      simp only [sizePassSeq, sizePass]
      exact sizePassSeq_le os (fun o _ p => sizePassAfter_le o p) _
    have hseq_end : (sizePassSeq (o :: os) pos).1 =
        (sizePassSeq os (sizePass o pos).1).1 := by
      simp only [sizePassSeq, sizePass]
    have hszo : (sizePass o pos).1 < 2 ^ 32 := by omega
    obtain ⟨w, hw, hwt, hwb⟩ := ih o (by simp) pos (serSeq e os (sizePass o pos).1 ++ input)
      f hwf.1 hszo (by simp only [seqFuel] at hfuel; omega)
    obtain ⟨ws, hws, hwst, hwsb⟩ := ihos (fun o ho => ih o (by simp [ho]))
      (sizePass o pos).1 input (acc ++ [w]) f hwf.2 (by omega)
      (by simp only [seqFuel] at hfuel; omega)
    have hcongr := serObj_congr e w o pos hwt hwb
    refine ⟨w :: ws, ?_, ?_, ?_⟩
    · simp only [DBusObject.getTypes, parseObjectSeq]
      rw [serSeq_cons, List.append_assoc, hw]
      show parseObjectSeq f (DBusObject.getTypes os) e (acc ++ [w])
        (serSeq e os (sizePass o pos).1 ++ input) (sizePass o pos).1 = _
      rw [hws, hseq_end]
      simp
    · simp only [DBusObject.getTypes, hwt, hwst]
    · rw [serSeq_cons, serSeq_cons, hcongr.1, hcongr.2, hwsb]

theorem parseArr_roundTrip (e : Endianness) (bt : DBusType) (os : List DBusObject) :
    (∀ o ∈ os, RoundTrip e o) →
    ∀ (pos : Nat) (input : List Nat) (acc : List DBusObject) (fuel : Nat),
      DBusObject.wfList os → DBusObject.typesAre bt os →
      (zeroSized bt = true → 8 ∣ pos) →
      (sizePassSeq os pos).1 < 2 ^ 32 → arrFuel os ≤ fuel →
      ∃ ws, parseArrayElems fuel bt e (sizePassSeq os pos).1 acc
          (serSeq e os pos ++ input) pos =
          .ok (DBusObjectArray.mk bt (acc ++ ws), input, (sizePassSeq os pos).1)
        ∧ DBusObject.typesAre bt ws
        ∧ serSeq e ws pos = serSeq e os pos := by
  cases hz : zeroSized bt with
  | true =>
    intro _ pos input acc fuel _ hta hdvd _ hfuel
    have h8 := hdvd rfl
    have hzs := zeroSized_serSeq e os pos (typesAre_zeroSizedList bt os hta hz) h8
    obtain ⟨f, rfl⟩ : ∃ f, fuel = f + 1 :=
      ⟨fuel - 1, by cases os <;> simp only [arrFuel] at hfuel <;> omega⟩
    refine ⟨[], ?_, trivial, by rw [hzs.1]; rfl⟩
    rw [hzs.1, hzs.2]
    simp [parseArrayElems]
  | false =>
    induction os with
    | nil =>
      intro _ pos input acc fuel _ _ _ _ hfuel
      obtain ⟨f, rfl⟩ : ∃ f, fuel = f + 1 :=
        ⟨fuel - 1, by simp only [arrFuel] at hfuel; omega⟩
      refine ⟨[], ?_, trivial, rfl⟩
      simp [parseArrayElems, serSeq, sizePassSeq]
    | cons o os ihos =>
      intro ih pos input acc fuel hwf hta hdvd hsz hfuel
      simp only [DBusObject.wfList] at hwf
      simp only [DBusObject.typesAre] at hta
      obtain ⟨f, rfl⟩ : ∃ f, fuel = f + 1 :=
        ⟨fuel - 1, by simp only [arrFuel] at hfuel; omega⟩
      have hmid_le : (sizePass o pos).1 ≤ (sizePassSeq (o :: os) pos).1 := by
        simp only [sizePassSeq, sizePass]
        exact sizePassSeq_le os (fun o _ p => sizePassAfter_le o p) _
      have hseq_end : (sizePassSeq (o :: os) pos).1 =
          (sizePassSeq os (sizePass o pos).1).1 := by
        simp only [sizePassSeq, sizePass]
      have hszo : (sizePass o pos).1 < 2 ^ 32 := by omega
      have hzo : zeroSized (DBusObject.getType o) = false := by rw [hta.1]; exact hz
      have hlt : pos < (sizePass o pos).1 := by
        have h1 := le_alignup pos (DBusObject.getType o).alignment
          (DBusType.alignment_pos _)
        have h2 := sizePassAfter_lt_of_not_zeroSized o
          (alignup pos (DBusObject.getType o).alignment) hzo
        simp only [sizePass]
        omega
      obtain ⟨w, hw, hwt, hwb⟩ := ih o (by simp) pos
        (serSeq e os (sizePass o pos).1 ++ input)
        f hwf.1 hszo (by simp only [arrFuel] at hfuel; omega)
      rw [hta.1] at hw hwt hwb
      obtain ⟨ws, hws, hwst, hwsb⟩ := ihos (fun o ho => ih o (by simp [ho]))
        (sizePass o pos).1 input (acc ++ [w]) f hwf.2 hta.2
        (fun h => by simp at h) (by omega)
        (by simp only [arrFuel] at hfuel; omega)
      have hcongr := serObj_congr e w o pos (hwt.trans hta.1.symm) (by rw [hta.1]; exact hwb)
      refine ⟨w :: ws, ?_, ⟨hwt, hwst⟩, ?_⟩
      · simp only [parseArrayElems]
        rw [if_pos (by omega)]
        rw [serSeq_cons, List.append_assoc, hw]
        show parseArrayElems f bt e (sizePassSeq (o :: os) pos).1 (acc ++ [w])
          (serSeq e os (sizePass o pos).1 ++ input) (sizePass o pos).1 = _
        rw [hseq_end, hws]
        simp
      · rw [serSeq_cons, serSeq_cons, hcongr.1, hcongr.2, hwsb]

theorem parseZeros_one (rest : List Nat) (pos : Nat) :
    parseZeros 1 (0 :: rest) pos = .ok (rest, pos + 1) := by
  have h := parseZeros_exact 1 rest pos
  simpa using h

theorem roundTrip_all (e : Endianness) : ∀ v, RoundTrip e v := by
  intro v
  induction v using DBusObject.objectInduction with
  | hchar c =>
    intro pos input fuel hwf hsz hfuel
    obtain ⟨f, rfl⟩ : ∃ f, fuel = f + 1 :=
      ⟨fuel - 1, by have := Nat.le_trans (one_le_objFuel _) hfuel; omega⟩
    refine ⟨.char c, ?_, rfl, rfl⟩
    simp only [DBusObject.wf] at hwf
    simp only [parseObject, DBusObject.getType, DBusType.alignment, serObj, serAfter,
      alignup_one, parsePad_one, parseZeros_zero, Nat.sub_self, List.replicate_zero,
      List.nil_append, List.cons_append, parseChar_cons, sizePass, sizePassAfter,
      Nat.mod_eq_of_lt hwf]
  | hboolean b =>
    intro pos input fuel hwf hsz hfuel
    obtain ⟨f, rfl⟩ : ∃ f, fuel = f + 1 :=
      ⟨fuel - 1, by have := Nat.le_trans (one_le_objFuel _) hfuel; omega⟩
    refine ⟨.boolean b, ?_, rfl, rfl⟩
    cases b <;>
      simp [parseObject, DBusObject.getType, DBusType.alignment, serObj, serAfter,
        List.append_assoc, parseZeros_pad 4 (by omega), parseNat_exact, sizePass,
        sizePassAfter]
  | huint16 x =>
    intro pos input fuel hwf hsz hfuel
    obtain ⟨f, rfl⟩ : ∃ f, fuel = f + 1 :=
      ⟨fuel - 1, by have := Nat.le_trans (one_le_objFuel _) hfuel; omega⟩
    refine ⟨.uint16 x, ?_, rfl, rfl⟩
    simp only [DBusObject.wf] at hwf
    simp only [parseObject, DBusObject.getType, DBusType.alignment, serObj, serAfter,
      List.append_assoc]
    simp only [parseZeros_pad 2 (by omega), parseNat_exact, sizePass, sizePassAfter,
      DBusObject.getType, DBusType.alignment,
      Nat.mod_eq_of_lt (show x < 2 ^ (8 * 2) by omega)]
  | hint16 x =>
    intro pos input fuel hwf hsz hfuel
    obtain ⟨f, rfl⟩ : ∃ f, fuel = f + 1 :=
      ⟨fuel - 1, by have := Nat.le_trans (one_le_objFuel _) hfuel; omega⟩
    refine ⟨.int16 x, ?_, rfl, rfl⟩
    simp only [DBusObject.wf] at hwf
    simp only [parseObject, DBusObject.getType, DBusType.alignment, serObj, serAfter,
      List.append_assoc]
    simp only [parseZeros_pad 2 (by omega), parseNat_exact, sizePass, sizePassAfter,
      DBusObject.getType, DBusType.alignment,
      Nat.mod_eq_of_lt (show x < 2 ^ (8 * 2) by omega)]
  | huint32 x =>
    intro pos input fuel hwf hsz hfuel
    obtain ⟨f, rfl⟩ : ∃ f, fuel = f + 1 :=
      ⟨fuel - 1, by have := Nat.le_trans (one_le_objFuel _) hfuel; omega⟩
    refine ⟨.uint32 x, ?_, rfl, rfl⟩
    simp only [DBusObject.wf] at hwf
    simp only [parseObject, DBusObject.getType, DBusType.alignment, serObj, serAfter,
      List.append_assoc]
    simp only [parseZeros_pad 4 (by omega), parseNat_exact, sizePass, sizePassAfter,
      DBusObject.getType, DBusType.alignment,
      Nat.mod_eq_of_lt (show x < 2 ^ (8 * 4) by omega)]
  | hint32 x =>
    intro pos input fuel hwf hsz hfuel
    obtain ⟨f, rfl⟩ : ∃ f, fuel = f + 1 :=
      ⟨fuel - 1, by have := Nat.le_trans (one_le_objFuel _) hfuel; omega⟩
    refine ⟨.int32 x, ?_, rfl, rfl⟩
    simp only [DBusObject.wf] at hwf
    simp only [parseObject, DBusObject.getType, DBusType.alignment, serObj, serAfter,
      List.append_assoc]
    simp only [parseZeros_pad 4 (by omega), parseNat_exact, sizePass, sizePassAfter,
      DBusObject.getType, DBusType.alignment,
      Nat.mod_eq_of_lt (show x < 2 ^ (8 * 4) by omega)]
  | huint64 x =>
    intro pos input fuel hwf hsz hfuel
    obtain ⟨f, rfl⟩ : ∃ f, fuel = f + 1 :=
      ⟨fuel - 1, by have := Nat.le_trans (one_le_objFuel _) hfuel; omega⟩
    refine ⟨.uint64 x, ?_, rfl, rfl⟩
    simp only [DBusObject.wf] at hwf
    simp only [parseObject, DBusObject.getType, DBusType.alignment, serObj, serAfter,
      List.append_assoc]
    simp only [parseZeros_pad 8 (by omega), parseNat_exact, sizePass, sizePassAfter,
      DBusObject.getType, DBusType.alignment,
      Nat.mod_eq_of_lt (show x < 2 ^ (8 * 8) by omega)]
  | hint64 x =>
    intro pos input fuel hwf hsz hfuel
    obtain ⟨f, rfl⟩ : ∃ f, fuel = f + 1 :=
      ⟨fuel - 1, by have := Nat.le_trans (one_le_objFuel _) hfuel; omega⟩
    refine ⟨.int64 x, ?_, rfl, rfl⟩
    simp only [DBusObject.wf] at hwf
    simp only [parseObject, DBusObject.getType, DBusType.alignment, serObj, serAfter,
      List.append_assoc]
    simp only [parseZeros_pad 8 (by omega), parseNat_exact, sizePass, sizePassAfter,
      DBusObject.getType, DBusType.alignment,
      Nat.mod_eq_of_lt (show x < 2 ^ (8 * 8) by omega)]
  | hdouble x =>
    intro pos input fuel hwf hsz hfuel
    obtain ⟨f, rfl⟩ : ∃ f, fuel = f + 1 :=
      ⟨fuel - 1, by have := Nat.le_trans (one_le_objFuel _) hfuel; omega⟩
    refine ⟨.double x, ?_, rfl, rfl⟩
    simp only [DBusObject.wf] at hwf
    simp only [parseObject, DBusObject.getType, DBusType.alignment, serObj, serAfter,
      List.append_assoc]
    simp only [parseZeros_pad 4 (by omega), parseNat_exact, sizePass, sizePassAfter,
      DBusObject.getType, DBusType.alignment,
      Nat.mod_eq_of_lt (show x < 2 ^ (8 * 8) by omega)]
  | hunixFD x =>
    intro pos input fuel hwf hsz hfuel
    obtain ⟨f, rfl⟩ : ∃ f, fuel = f + 1 :=
      ⟨fuel - 1, by have := Nat.le_trans (one_le_objFuel _) hfuel; omega⟩
    refine ⟨.unixFD x, ?_, rfl, rfl⟩
    simp only [DBusObject.wf] at hwf
    simp only [parseObject, DBusObject.getType, DBusType.alignment, serObj, serAfter,
      List.append_assoc]
    simp only [parseZeros_pad 4 (by omega), parseNat_exact, sizePass, sizePassAfter,
      DBusObject.getType, DBusType.alignment,
      Nat.mod_eq_of_lt (show x < 2 ^ (8 * 4) by omega)]
  | hstring s =>
    intro pos input fuel hwf hsz hfuel
    obtain ⟨f, rfl⟩ : ∃ f, fuel = f + 1 :=
      ⟨fuel - 1, by have := Nat.le_trans (one_le_objFuel _) hfuel; omega⟩
    refine ⟨.string s, ?_, rfl, rfl⟩
    simp only [DBusObject.wf] at hwf
    have hlen : s.length % 2 ^ 32 = s.length := Nat.mod_eq_of_lt hwf.1
    have htake : (s ++ [0]).take (s.length + 1) = s ++ [0] :=
      List.take_of_length_le (by simp)
    simp only [parseObject, DBusObject.getType, DBusType.alignment, serObj, serAfter,
      hlen, htake, List.append_assoc]
    simp only [parseZeros_pad 4 (by omega), parseNat_exact,
      Nat.mod_eq_of_lt (show s.length < 2 ^ (8 * 4) by omega), List.cons_append,
      List.nil_append, List.singleton_append, List.append_assoc, parseNChars_exact,
      parseZeros_one, sizePass, sizePassAfter, DBusObject.getType, DBusType.alignment,
      hlen, Except.ok.injEq, Prod.mk.injEq]
    exact ⟨trivial, trivial, by omega⟩
  | hpath s =>
    intro pos input fuel hwf hsz hfuel
    obtain ⟨f, rfl⟩ : ∃ f, fuel = f + 1 :=
      ⟨fuel - 1, by have := Nat.le_trans (one_le_objFuel _) hfuel; omega⟩
    refine ⟨.path s, ?_, rfl, rfl⟩
    simp only [DBusObject.wf] at hwf
    have hlen : s.length % 2 ^ 32 = s.length := Nat.mod_eq_of_lt hwf.1
    have htake : (s ++ [0]).take (s.length + 1) = s ++ [0] :=
      List.take_of_length_le (by simp)
    simp only [parseObject, DBusObject.getType, DBusType.alignment, serObj, serAfter,
      hlen, htake, List.append_assoc]
    simp only [parseZeros_pad 4 (by omega), parseNat_exact,
      Nat.mod_eq_of_lt (show s.length < 2 ^ (8 * 4) by omega), List.cons_append,
      List.nil_append, List.singleton_append, List.append_assoc, parseNChars_exact,
      parseZeros_one, sizePass, sizePassAfter, DBusObject.getType, DBusType.alignment,
      hlen, Except.ok.injEq, Prod.mk.injEq]
    exact ⟨trivial, trivial, by omega⟩
  | hsignature s =>
    intro pos input fuel hwf hsz hfuel
    obtain ⟨f, rfl⟩ : ∃ f, fuel = f + 1 :=
      ⟨fuel - 1, by have := Nat.le_trans (one_le_objFuel _) hfuel; omega⟩
    refine ⟨.signature s, ?_, rfl, rfl⟩
    simp only [DBusObject.wf] at hwf
    have hlen : s.length % 2 ^ 8 = s.length := Nat.mod_eq_of_lt hwf.1
    have htake : (s ++ [0]).take (s.length + 1) = s ++ [0] :=
      List.take_of_length_le (by simp)
    simp only [parseObject, DBusObject.getType, DBusType.alignment, serObj, serAfter,
      alignup_one, parsePad_one, parseZeros_zero, Nat.sub_self, List.replicate_zero,
      List.nil_append, hlen, htake, List.cons_append, parseChar_cons,
      List.append_assoc]
    simp only [Nat.mod_eq_of_lt (show s.length < 2 ^ 8 by omega), List.singleton_append,
      parseNChars_exact, parseZeros_one, sizePass, sizePassAfter, DBusObject.getType,
      DBusType.alignment, alignup_one, Except.ok.injEq, Prod.mk.injEq]
    exact ⟨trivial, trivial, by omega⟩
  | hvariant o iho =>
    intro pos input fuel hwf hsz hfuel
    obtain ⟨f, rfl⟩ : ∃ f, fuel = f + 1 :=
      ⟨fuel - 1, by have := Nat.le_trans (one_le_objFuel _) hfuel; omega⟩
    simp only [DBusObject.wf] at hwf
    have hva : DBusType.alignment DBusType.variant = 1 := rfl
    have hlen : (DBusObject.getType o).toString.length % 2 ^ 8 =
        (DBusObject.getType o).toString.length := Nat.mod_eq_of_lt hwf.2
    have htake : ((DBusObject.getType o).toString ++ [0]).take
        ((DBusObject.getType o).toString.length + 1) =
        (DBusObject.getType o).toString ++ [0] :=
      List.take_of_length_le (by simp)
    have harith : pos + 1 + ((DBusObject.getType o).toString.length + 1) =
        pos + 1 + (DBusObject.getType o).toString.length + 1 := by omega
    have hsz1 : (sizePass (DBusObject.variant o) pos).1 =
        (sizePass o (pos + 1 + (DBusObject.getType o).toString.length + 1)).1 := by
      simp only [sizePass, sizePassAfter, DBusObject.getType, hva, alignup_one, hlen,
        harith]
    have hconn : (sizePass o (pos + 1 + (DBusObject.getType o).toString.length + 1)).1 =
        (sizePassAfter o (alignup (pos + 1 + (DBusObject.getType o).toString.length + 1)
          (DBusObject.getType o).alignment)).1 := rfl
    have hle1 := le_alignup (pos + 1 + (DBusObject.getType o).toString.length + 1)
      (DBusObject.getType o).alignment (DBusType.alignment_pos _)
    have hle2 := sizePassAfter_le o
      (alignup (pos + 1 + (DBusObject.getType o).toString.length + 1)
        (DBusObject.getType o).alignment)
    have hov : ¬ 2 ^ 64 ≤ pos + 1 + (DBusObject.getType o).toString.length := by omega
    have hszo : (sizePass o (pos + 1 + (DBusObject.getType o).toString.length + 1)).1 <
        2 ^ 32 := by omega
    have hfo : objFuel o ≤ f := by
      have h : objFuel (DBusObject.variant o) = 1 + objFuel o := rfl
      omega
    obtain ⟨w, hw, hwt, hwb⟩ :=
      iho (pos + 1 + (DBusObject.getType o).toString.length + 1) input f hwf.1 hszo hfo
    simp only [serObj, List.append_assoc] at hw
    refine ⟨.variant w, ?_, rfl, ?_⟩
    · simp only [parseObject, DBusObject.getType, hva, serObj, serAfter,
        alignup_one, parsePad_one, parseZeros_zero, Nat.sub_self, List.replicate_zero,
        List.nil_append, hlen, htake, harith, List.cons_append, List.singleton_append,
        List.append_assoc, parseChar_cons, runParseType_toString_top, eq_self_iff_true,
        if_true, hov, if_false, parseZeros_one]
      rw [hw, hsz1]
    · simp only [DBusObject.getType, hva, alignup_one, serAfter, hwt, hlen, harith]
      rw [hwb]
  | hdictEntry k v ihk ihv =>
    intro pos input fuel hwf hsz hfuel
    obtain ⟨f, rfl⟩ : ∃ f, fuel = f + 1 :=
      ⟨fuel - 1, by have := Nat.le_trans (one_le_objFuel _) hfuel; omega⟩
    simp only [DBusObject.wf] at hwf
    have hda : DBusType.alignment
        (DBusType.dictEntry (DBusObject.getType k) (DBusObject.getType v)) = 8 := rfl
    have hend : (sizePass (DBusObject.dictEntry k v) pos).1 =
        (sizePass v (sizePass k (alignup pos 8)).1).1 := by
      simp only [sizePass, sizePassAfter, DBusObject.getType, hda]
    have hk_le := sizePass_le k (alignup pos 8)
    have hv_le := sizePass_le v (sizePass k (alignup pos 8)).1
    have hszk : (sizePass k (alignup pos 8)).1 < 2 ^ 32 := by omega
    have hszv : (sizePass v (sizePass k (alignup pos 8)).1).1 < 2 ^ 32 := by omega
    have hfkv : objFuel k ≤ f ∧ objFuel v ≤ f := by
      have h : objFuel (DBusObject.dictEntry k v) = 1 + objFuel k + objFuel v := rfl
      omega
    obtain ⟨wk, hwk, hwkt, hwkb⟩ := ihk (alignup pos 8)
      (serObj e v (sizePass k (alignup pos 8)).1 ++ input) f hwf.1 hszk hfkv.1
    obtain ⟨wv, hwv, hwvt, hwvb⟩ := ihv (sizePass k (alignup pos 8)).1 input f
      hwf.2 hszv hfkv.2
    have ck := serObj_congr e wk k (alignup pos 8) hwkt hwkb
    have cv := serObj_congr e wv v (sizePass k (alignup pos 8)).1 hwvt hwvb
    refine ⟨.dictEntry wk wv, ?_, ?_, ?_⟩
    · simp only [serObj, List.append_assoc] at hwk hwv
      simp only [parseObject, DBusObject.getType, hda, serObj, serAfter_dict,
        List.append_assoc, parseZeros_pad 8 (by omega)]
      rw [hwk]
      simp only []
      rw [hwv, hend]
    · simp only [DBusObject.getType, hwkt, hwvt]
    · simp only [DBusObject.getType, hda, serAfter_dict]
      rw [ck.1, ck.2, cv.1]
  | harray bt es ihes =>
    intro pos input fuel hwf hsz hfuel
    obtain ⟨f, rfl⟩ : ∃ f, fuel = f + 1 :=
      ⟨fuel - 1, by have := Nat.le_trans (one_le_objFuel _) hfuel; omega⟩
    simp only [DBusObject.wf] at hwf
    have haa : DBusType.alignment (DBusType.array bt) = 4 := rfl
    have hend : (sizePass (DBusObject.array bt es) pos).1 =
        (sizePassSeq es (alignup (alignup pos 4 + 4) bt.alignment)).1 := by
      simp only [sizePass, sizePassAfter, DBusObject.getType, haa]
    have hp2_le := sizePassSeq_le es (fun o _ p => sizePassAfter_le o p)
      (alignup (alignup pos 4 + 4) bt.alignment)
    have hbslen : (serSeq e es (alignup (alignup pos 4 + 4) bt.alignment)).length =
        (sizePassSeq es (alignup (alignup pos 4 + 4) bt.alignment)).1 -
          alignup (alignup pos 4 + 4) bt.alignment :=
      serSeq_length e es (fun o _ p => serAfter_length e o p)
        (fun o _ p => sizePassAfter_le o p) _
    have hmod : (serSeq e es (alignup (alignup pos 4 + 4) bt.alignment)).length %
        2 ^ (8 * 4) = (serSeq e es (alignup (alignup pos 4 + 4) bt.alignment)).length :=
      Nat.mod_eq_of_lt (by omega)
    have hdvd : zeroSized bt = true → 8 ∣ alignup (alignup pos 4 + 4) bt.alignment := by
      intro hzb
      have h8 := zeroSized_alignment bt hzb
      rw [← h8]
      exact dvd_alignup _ _
    have hsz2 : (sizePassSeq es (alignup (alignup pos 4 + 4) bt.alignment)).1 <
        2 ^ 32 := by omega
    have hfa : arrFuel es ≤ f := by
      have h : objFuel (DBusObject.array bt es) = 1 + arrFuel es := rfl
      omega
    obtain ⟨ws, hws, hwst, hwsb⟩ := parseArr_roundTrip e bt es ihes
      (alignup (alignup pos 4 + 4) bt.alignment) input [] f hwf.1 hwf.2 hdvd hsz2 hfa
    simp only [List.nil_append] at hws
    have hmk := DBusObjectArray.mk_eq bt ws hwst
    refine ⟨DBusObjectArray.mk bt ws, ?_, ?_, ?_⟩

    · simp only [parseObject, DBusObject.getType, haa, serObj, serAfter,
        List.append_assoc, parseZeros_pad 4 (by omega), parseNat_exact, hmod,
        parseZeros_pad bt.alignment (DBusType.alignment_pos bt)]
      rw [if_neg (by omega),
        show alignup (alignup pos 4 + 4) bt.alignment +
            (serSeq e es (alignup (alignup pos 4 + 4) bt.alignment)).length =
          (sizePassSeq es (alignup (alignup pos 4 + 4) bt.alignment)).1 from by omega,
        hws, hend]
    · rw [hmk]
      simp only [DBusObject.getType]
    · simp only [serAfter, DBusObject.getType, haa, hmk, hwsb]
  | hstruct es ihes =>
    intro pos input fuel hwf hsz hfuel
    obtain ⟨f, rfl⟩ : ∃ f, fuel = f + 1 :=
      ⟨fuel - 1, by have := Nat.le_trans (one_le_objFuel _) hfuel; omega⟩
    simp only [DBusObject.wf] at hwf
    have hsa : DBusType.alignment (DBusType.struct (DBusObject.getTypes es)) = 8 := rfl
    have hend : (sizePass (DBusObject.struct es) pos).1 =
        (sizePassSeq es (alignup pos 8)).1 := by
      simp only [sizePass, sizePassAfter, DBusObject.getType, hsa]
    have hsz2 : (sizePassSeq es (alignup pos 8)).1 < 2 ^ 32 := by omega
    have hfs : seqFuel es ≤ f := by
      have h : objFuel (DBusObject.struct es) = 1 + seqFuel es := rfl
      omega
    obtain ⟨ws, hws, hwst, hwsb⟩ := parseSeq_roundTrip e es ihes (alignup pos 8)
      input [] f hwf hsz2 hfs
    simp only [List.nil_append] at hws
    refine ⟨.struct ws, ?_, ?_, ?_⟩
    · simp only [parseObject, DBusObject.getType, hsa, serObj, serAfter,
        List.append_assoc, parseZeros_pad 8 (by omega)]
      rw [hws, hend]
    · simp only [DBusObject.getType, hwst]
    · simp only [serAfter, DBusObject.getType, hsa, hwsb]

/-! ## The claims -/

/-- C1: serialization/parsing round-trip.  For every well-formed value v
(sizes within the uint32_t range the serializer assumes) and either
endianness, parsing the buffer produced by the two-pass serializer at the
value's own type succeeds, consumes the whole buffer, and yields a value
whose re-serialization is byte-identical — the equality checked by
check_serialize_and_parse in the unit tests. -/
theorem claim_C1_serialize_parse_roundtrip (e : Endianness) (v : DBusObject)
    (fuel : Nat) (hwf : DBusObject.wf v)
    (hsz : DBusObject.serializedSize v < 2 ^ 32) (hfuel : objFuel v ≤ fuel) :
    ∃ w, parseObject fuel (DBusObject.getType v) e (dbus_object_to_buffer e v) 0 =
        .ok (w, [], DBusObject.serializedSize v)
      ∧ dbus_object_to_buffer e w = dbus_object_to_buffer e v := by
  obtain ⟨w, hw, hwt, hwb⟩ := roundTrip_all e v 0 [] fuel hwf hsz hfuel
  rw [List.append_nil] at hw
  refine ⟨w, ?_, ?_⟩
  · rw [dbus_object_to_buffer_eq_ser]
    exact hw
  · rw [dbus_object_to_buffer_eq_ser, dbus_object_to_buffer_eq_ser]
    exact (serObj_congr e w v 0 hwt hwb).1

theorem claim_C1_serialize_parse_roundtrip_witness :
    DBusObject.wf (.uint32 7) ∧ DBusObject.serializedSize (.uint32 7) < 2 ^ 32 ∧
      objFuel (.uint32 7) ≤ 1 ∧
      ∃ w, parseObject 1 (DBusObject.getType (.uint32 7)) .littleEndian
          (dbus_object_to_buffer .littleEndian (.uint32 7)) 0 =
          .ok (w, [], DBusObject.serializedSize (.uint32 7))
        ∧ dbus_object_to_buffer .littleEndian w =
            dbus_object_to_buffer .littleEndian (.uint32 7) :=
  ⟨by norm_num [DBusObject.wf], by decide, by decide,
    claim_C1_serialize_parse_roundtrip .littleEndian (.uint32 7) 1
      (by norm_num [DBusObject.wf]) (by decide) (by decide)⟩

/-- C2: the spec says the Double type has alignment 8, but
DBusTypeDouble::alignment() (dbus.hpp lines 465-468) returns
sizeof(int32_t) = 4 — the comment above it even cites the D-Bus
specification table entry 8.  The embedded alignment function therefore
yields 4, not 8, and a serialized Double may start at offset 4. -/
theorem claim_C2_double_alignment_is_four :
    DBusType.alignment .double = 4 ∧ DBusType.alignment .double ≠ 8 ∧
      alignup 4 (DBusType.alignment .double) = 4 :=
  ⟨rfl, by decide, by decide⟩

/-- C3 (counterexample to the claim): DBusMessage::parse never compares the
bytes consumed by the body against the declared body_length.  This 28-byte
little-endian message declares body_length = 999 (header field 4) yet
carries a single 4-byte Uint32 body value, and it parses successfully. -/
theorem claim_C3_counterexample :
    ∃ msg rest pos,
      DBusMessage.parse 32 .littleEndian
        [108, 1, 0, 1, 231, 3, 0, 0, 1, 0, 0, 0, 7, 0, 0, 0,
         8, 1, 103, 0, 1, 117, 0, 0, 42, 0, 0, 0] = .ok (msg, rest, pos)
      ∧ getHeader_bodySize msg.header = .ok 999
      ∧ msg.body = [.uint32 42] ∧ rest = [] :=
  ⟨⟨.struct [.char 108, .char 1, .char 0, .char 1, .uint32 999, .uint32 1,
      .array (.struct [.char, .variant])
        [.struct [.char 8, .variant (.signature [117])]]], [.uint32 42]⟩,
    [], 28, rfl, rfl, rfl, rfl⟩

/-- C3 (amended): the declared body_length is used only through the
comparison with 0 that decides whether a Signature header field is looked
up; the byte counter after the body is never compared with it.  The same
message bytes parse successfully whether the declared body_length is 999
(not matching the 4 consumed body bytes) or 4 (matching). -/
theorem claim_C3_amended :
    (∃ msg rest pos,
      DBusMessage.parse 32 .littleEndian
        [108, 1, 0, 1, 231, 3, 0, 0, 1, 0, 0, 0, 7, 0, 0, 0,
         8, 1, 103, 0, 1, 117, 0, 0, 42, 0, 0, 0] = .ok (msg, rest, pos)
      ∧ getHeader_bodySize msg.header = .ok 999 ∧ msg.body = [.uint32 42])
    ∧ (∃ msg rest pos,
      DBusMessage.parse 32 .littleEndian
        [108, 1, 0, 1, 4, 0, 0, 0, 1, 0, 0, 0, 7, 0, 0, 0,
         8, 1, 103, 0, 1, 117, 0, 0, 42, 0, 0, 0] = .ok (msg, rest, pos)
      ∧ getHeader_bodySize msg.header = .ok 4 ∧ msg.body = [.uint32 42]) :=
  ⟨⟨⟨.struct [.char 108, .char 1, .char 0, .char 1, .uint32 999, .uint32 1,
      .array (.struct [.char, .variant])
        [.struct [.char 8, .variant (.signature [117])]]], [.uint32 42]⟩,
    [], 28, rfl, rfl, rfl⟩,
   ⟨⟨.struct [.char 108, .char 1, .char 0, .char 1, .uint32 4, .uint32 1,
      .array (.struct [.char, .variant])
        [.struct [.char 8, .variant (.signature [117])]]], [.uint32 42]⟩,
    [], 28, rfl, rfl, rfl⟩⟩

/-- C4 (counterexample to the claim): DBusObjectArray::mk silently accepts
a non-empty element vector with differing element types — no exception, no
assertion.  Here a Char element sits in an array whose recorded element
type is Uint32. -/
theorem claim_C4_counterexample :
    DBusObjectArray.mk .uint32 [.uint32 1, .char 2] =
      .array .uint32 [.uint32 1, .char 2]
    ∧ DBusObject.getType (.char 2) ≠ .uint32 :=
  ⟨rfl, by intro h; simp [DBusObject.getType] at h⟩

/-- C4 (amended): for a non-empty element vector DBusObjectArray::mk (via
mk1) takes the array's element type from element zero, ignoring both the
baseType argument and the types of the remaining elements; mixed-type
vectors are accepted without any signalled failure. -/
theorem claim_C4_amended (bt : DBusType) (o : DBusObject) (os : List DBusObject) :
    DBusObjectArray.mk bt (o :: os) = .array (DBusObject.getType o) (o :: os) := rfl

/-- C5 (counterexample to the claim): the wire parser for String checks
only the terminating byte, so a String whose 1-byte payload is itself a
NUL byte parses successfully: length 1, payload 00, terminator 00. -/
theorem claim_C5_counterexample :
    parseObject 1 .string .littleEndian [1, 0, 0, 0, 0, 0] 0 =
      .ok (.string [0], [], 6) ∧ (0 : Nat) ∈ ([0] : List Nat) :=
  ⟨rfl, by simp⟩

/-- C5 (amended): parseString32 reads the declared number of payload bytes
verbatim and verifies only that the single byte after them is zero; any
payload whose length fits in a uint32_t is accepted, interior NUL bytes
included. -/
theorem claim_C5_amended (e : Endianness) (s input : List Nat)
    (hs : s.length < 2 ^ 32) :
    parseObject 1 .string e (natBytes e 4 s.length ++ (s ++ (0 :: input))) 0 =
      .ok (.string s, input, 4 + s.length + 1) := by
  have hp : parsePad (DBusType.alignment .string) 0 = 0 := rfl
  simp only [parseObject, hp, parseZeros_zero, parseNat_exact,
    Nat.mod_eq_of_lt (show s.length < 2 ^ (8 * 4) by omega), Nat.zero_add,
    parseNChars_exact, parseZeros_one]

theorem claim_C5_amended_witness :
    ([0] : List Nat).length < 2 ^ 32 ∧
    parseObject 1 .string .littleEndian
        (natBytes .littleEndian 4 ([0] : List Nat).length ++ ([0] ++ (0 :: []))) 0 =
      .ok (.string [0], [], 4 + ([0] : List Nat).length + 1) :=
  ⟨by norm_num, claim_C5_amended .littleEndian [0] [] (by norm_num)⟩

/-- C6: a non-zero padding byte is rejected, but the stored error position
is not the offset of the offending byte.  Parse::parse adds the chunk size
to the byte counter before invoking the continuation, and ParseZeros::parse
then throws ParseError(p.getPos() + i), so the stored position is the
offending offset plus the chunk size.  Concretely: struct (Char, Uint32),
input 07 01 00 00 ..., padding chunk covers offsets 1-3, the non-zero byte
sits at offset 1, yet the error carries position 4. -/
theorem claim_C6_padding_error_position :
    parseObject 5 (.struct [.char, .uint32]) .littleEndian
      [7, 1, 0, 0, 0, 0, 0, 0] 0 =
      .error ⟨4, "Unexpected non-zero byte."⟩
    ∧ ([7, 1, 0, 0, 0, 0, 0, 0] : List Nat)[1]? = some 1
    ∧ (4 : Nat) ≠ 1 :=
  ⟨rfl, rfl, by omega⟩

/-- C7: the Boolean object parser decodes a 4-byte Uint32 in the selected
endianness, rejects every decoded value other than 0 and 1 with a
ParseError at the position after the four bytes, and otherwise produces
the Boolean with the truth value of the decoded integer. -/
theorem claim_C7_boolean_strict (e : Endianness) (x : Nat) (input : List Nat)
    (hx : x < 2 ^ 32) :
    parseObject 1 .boolean e (natBytes e 4 x ++ input) 0 =
      if 1 < x then .error ⟨4, "Boolean value that is not 0 or 1."⟩
      else .ok (.boolean (x != 0), input, 4) := by
  have hp : parsePad (DBusType.alignment .boolean) 0 = 0 := rfl
  simp only [parseObject, hp, parseZeros_zero, parseNat_exact,
    Nat.mod_eq_of_lt (show x < 2 ^ (8 * 4) by omega), Nat.zero_add]

theorem claim_C7_boolean_strict_witness :
    (2 : Nat) < 2 ^ 32 ∧
    parseObject 1 .boolean .littleEndian (natBytes .littleEndian 4 2 ++ []) 0 =
      if 1 < 2 then .error ⟨4, "Boolean value that is not 0 or 1."⟩
      else .ok (.boolean ((2 : Nat) != 0), [], 4) :=
  ⟨by norm_num, claim_C7_boolean_strict .littleEndian 2 [] (by norm_num)⟩

/-- C8: the Variant parser reads the 1-byte declared signature length,
parses exactly one type from the signature bytes, and then compares the
position after that type against the declared length: a mismatch (and only
a mismatch) is rejected with the incorrect-signature-length ParseError at
that position, while a match proceeds to the NUL terminator and one value
of the decoded type. -/
theorem claim_C8_variant_length_check (e : Endianness) (t : DBusType) (L : Nat)
    (rest : List Nat) (hL : L < 2 ^ 8) (hov : ¬ 2 ^ 64 ≤ 1 + L) :
    parseObject 2 .variant e (L :: (DBusType.toString t ++ rest)) 0 =
      if 1 + (DBusType.toString t).length = 1 + L then
        match parseZeros 1 rest (1 + (DBusType.toString t).length) with
        | .error err => .error err
        | .ok (input, pos2) =>
          match parseObject 1 t e input pos2 with
          | .error err => .error err
          | .ok (obj, input, pos3) => .ok (.variant obj, input, pos3)
      else .error ⟨1 + (DBusType.toString t).length,
        "Incorrect variant signature length."⟩ := by
  have hp : parsePad (DBusType.alignment .variant) 0 = 0 := rfl
  simp only [parseObject, hp, parseZeros_zero, parseChar_cons,
    Nat.mod_eq_of_lt hL, Nat.zero_add, hov, if_false, runParseType_toString_top]

theorem claim_C8_variant_length_check_witness :
    (2 : Nat) < 2 ^ 8 ∧ ¬ 2 ^ 64 ≤ 1 + 2 ∧
    parseObject 2 .variant .littleEndian
        (2 :: (DBusType.toString .uint32 ++ [])) 0 =
      if 1 + (DBusType.toString .uint32).length = 1 + 2 then
        match parseZeros 1 [] (1 + (DBusType.toString .uint32).length) with
        | .error err => .error err
        | .ok (input, pos2) =>
          match parseObject 1 .uint32 .littleEndian input pos2 with
          | .error err => .error err
          | .ok (obj, input, pos3) => .ok (.variant obj, input, pos3)
      else .error ⟨1 + (DBusType.toString .uint32).length,
        "Incorrect variant signature length."⟩ :=
  ⟨by norm_num, by norm_num,
    claim_C8_variant_length_check .littleEndian .uint32 2 [] (by norm_num)
      (by norm_num)⟩

/-- C9: an empty array writes its 4-byte zero length field, then the
padding up to the element alignment, and the recorded payload length is
measured from the end of that padding.  The empty array of
struct(Uint32, String) therefore serializes, in both endiannesses, to
exactly eight zero bytes: four for the length, four of padding to the
struct's 8-byte alignment, no payload. -/
theorem claim_C9_empty_array_bytes :
    dbus_object_to_buffer .littleEndian
        (DBusObjectArray.mk (.struct [.uint32, .string]) []) =
      [0, 0, 0, 0, 0, 0, 0, 0]
    ∧ dbus_object_to_buffer .bigEndian
        (DBusObjectArray.mk (.struct [.uint32, .string]) []) =
      [0, 0, 0, 0, 0, 0, 0, 0] :=
  ⟨rfl, rfl⟩

/-- C10: signature/type round-trip.  For every type T, serializing T to
its signature string with DBusType::toString and parsing that string back
with DBusObjectSignature::toTypes yields exactly the one-element type list
containing T. -/
theorem claim_C10_signature_type_roundtrip (t : DBusType) :
    DBusObjectSignature.toTypes (DBusType.toString t) = .ok [t] := by
  have h := runParseType_toString_top t [] 0
  rw [List.append_nil] at h
  simp only [Nat.zero_add] at h
  simp only [DBusObjectSignature.toTypes, toTypesAux, h, lt_self_iff_false, if_false,
    List.nil_append]
